import Mathlib

/-!
Verification of the rbxfs rule-driven planning and conflict-resolution
engine: a shallow embedding of the argument parsers (`argtypes.go`), the
rule parser (`rules.go`), the out planner and multi-pass out analyzer
(`sync-out.go`), the in planner (`syncInReadDir`) and the in rule engine
cache discipline (`FuncDef.CallIn`), together with theorems settling the
specification claims about them.

Go strings are modelled as `List Char` (one element per byte/rune; the
claims under study only exercise single-byte runes), Go maps as
insertion-ordered association lists, and Go panics (out-of-range index)
as an explicit `Except` error.  Where the output of a Go map iteration
is visible, the iteration order is an explicit permutation parameter.
-/

namespace Rbxfs

/-- Association-list lookup, modelling Go map reads. -/
def lookupA {κ β : Type} [DecidableEq κ] : List (κ × β) → κ → Option β
  | [], _ => none
  | (k, v) :: m, k' => if k = k' then some v else lookupA m k'

/-- Association-list write, modelling Go map writes: replaces the value
in place when the key is present, otherwise appends the binding. -/
def updateA {κ β : Type} [DecidableEq κ] : List (κ × β) → κ → β → List (κ × β)
  | [], k, v => [(k, v)]
  | (k', v') :: m, k, v =>
    if k' = k then (k', v) :: m else (k', v') :: updateA m k v

/-- `filepath.Join` over path segments: empty segments are skipped and
the rest are joined with a slash (no further cleaning is needed for the
values produced by the engine). -/
def joinPath (segs : List String) : String :=
  String.intercalate "/" (segs.filter (fun s => s ≠ ""))

/-- Two-segment `filepath.Join`. -/
def join2 (a b : String) : String := joinPath [a, b]

/-- Stable insertion of `x` into a list: `x` is placed before the first
element strictly greater than it, hence after all equal elements. -/
def insertLt {α : Type} (lt : α → α → Bool) (x : α) : List α → List α
  | [] => [x]
  | y :: ys => if lt x y then x :: y :: ys else y :: insertLt lt x ys

/-- Stable sort by the strict comparator `lt` (models the library sorts
used in the finalization passes; for the inputs the engine sorts, ties
keep their incoming order). -/
def insSort {α : Type} (lt : α → α → Bool) (l : List α) : List α :=
  l.foldl (fun acc x => insertLt lt x acc) []

theorem insertLt_perm {α : Type} (lt : α → α → Bool) (x : α) (l : List α) :
    (insertLt lt x l).Perm (x :: l) := by
  induction l with
  | nil => simp [insertLt]
  | cons y ys ih =>
    simp only [insertLt]
    by_cases h : lt x y = true
    · rw [if_pos h]
    · rw [if_neg h]
      exact (ih.cons y).trans (List.Perm.swap x y ys)

theorem insSort_perm {α : Type} (lt : α → α → Bool) (l : List α) :
    (insSort lt l).Perm l := by
  suffices h : ∀ acc, ((l.foldl (fun acc x => insertLt lt x acc) acc).Perm (acc ++ l)) by
    simpa using h []
  induction l with
  | nil => simp
  | cons x xs ih =>
    intro acc
    simp only [List.foldl_cons]
    refine (ih (insertLt lt x acc)).trans ?_
    refine ((insertLt_perm lt x acc).append_right xs).trans ?_
    simpa using (@List.perm_middle _ x acc xs).symm

theorem insertLt_pairwise {α : Type} (lt : α → α → Bool)
    (htot : ∀ a b, lt a b = true → lt b a = false)
    (htrans : ∀ a b c, lt a b = false → lt b c = false → lt a c = false)
    (x : α) (l : List α) (hl : l.Pairwise (fun a b => lt b a = false)) :
    (insertLt lt x l).Pairwise (fun a b => lt b a = false) := by
  induction l with
  | nil => simp [insertLt]
  | cons y ys ih =>
    simp only [insertLt]
    rcases List.pairwise_cons.mp hl with ⟨hy, hys⟩
    by_cases h : lt x y = true
    · rw [if_pos h]
      refine List.pairwise_cons.mpr ⟨?_, hl⟩
      intro b hb
      rcases List.mem_cons.mp hb with hb | hb
      · subst hb; exact htot _ _ h
      · exact htrans b y x (hy b hb) (htot x y h)
    · rw [if_neg h]
      refine List.pairwise_cons.mpr ⟨?_, ih hys⟩
      intro b hb
      rcases List.mem_cons.mp ((insertLt_perm lt x ys).mem_iff.mp hb) with hb | hb
      · subst hb
        exact Bool.not_eq_true _ |>.mp h
      · exact hy b hb

theorem insSort_pairwise {α : Type} (lt : α → α → Bool)
    (htot : ∀ a b, lt a b = true → lt b a = false)
    (htrans : ∀ a b c, lt a b = false → lt b c = false → lt a c = false)
    (l : List α) :
    (insSort lt l).Pairwise (fun a b => lt b a = false) := by
  suffices h : ∀ acc, acc.Pairwise (fun a b => lt b a = false) →
      (l.foldl (fun acc x => insertLt lt x acc) acc).Pairwise (fun a b => lt b a = false) by
    exact h [] (by simp)
  induction l with
  | nil => intro acc hacc; simpa using hacc
  | cons x xs ih =>
    intro acc hacc
    exact ih _ (insertLt_pairwise lt htot htrans x acc hacc)

/-! ## Scene-tree data model (`rules.go` / the rbxfile interface)

Objects are shared by pointer in Go; we model a pointer as a `Nat`
identifier and the heap of decoded objects as a `World` function giving
each identifier its class name, `Name` property, ordered child list and
parent pointer. -/

structure ObjData where
  className : String
  name : String
  children : List Nat
  parent : Option Nat
  deriving Repr, DecidableEq

def World : Type := Nat → ObjData

structure FileDef where
  name : String
  isDir : Bool
  deriving Repr, DecidableEq

structure OutSelection where
  object : Nat
  children : List Nat
  properties : List String
  deriving Repr, DecidableEq

structure OutMap where
  file : FileDef
  selection : List OutSelection
  deriving Repr, DecidableEq

structure OutAction where
  depth : Nat
  dir : List String
  map : OutMap
  deriving Repr, DecidableEq

structure OrderedOutAction where
  priority : Nat
  action : OutAction
  deriving Repr, DecidableEq

/-- Go panics surfaced by the embedding: out-of-range indexing, and a
failed type assertion on a nil interface value. -/
inductive GoPanic where
  | indexOutOfRange
  | nilInterfaceConversion
  deriving Repr, DecidableEq

/-! ## `sync-out.go`: paths and sort keys -/

/-- `getChildIndex`: index of the object among its parent's children;
`0` when it has no parent or is not found in the child list. -/
def getChildIndex (w : World) (obj : Nat) : Nat :=
  match (w obj).parent with
  | none => 0
  | some p => ((w p).children.findIdx? (fun c => c = obj)).getD 0

/-- `getOutActionPathMaxDepth`. -/
def getOutActionPathMaxDepth (a : OutAction) : Nat := a.dir.length + 1

/-- `getOutActionPath`: depth `0` is the full path `dir ++ file name`;
depth `i ≥ 1` is the join of the first `len(dir) - i + 1` segments
(with `i` clamped to `len(dir)`). -/
def getOutActionPath (a : OutAction) (depth : Nat) : String :=
  if depth = 0 then join2 (joinPath a.dir) a.map.file.name
  else joinPath (a.dir.take (a.dir.length - (min depth a.dir.length) + 1))

/-- `getDirOutActionObject`: `none` models Go `nil`; indexing the child
list out of range is a Go panic. -/
def getDirOutActionObject (w : World) (a : OutAction) :
    Except GoPanic (Option Nat) :=
  match a.map.selection with
  | [sel] =>
    match sel.children with
    | [c] =>
      let ch := (w sel.object).children
      if h : c < ch.length then .ok (some ch[c]) else .error .indexOutOfRange
    | _ => .ok none
  | _ => .ok none

/-! ## `syncOutAnalyzeActions`, pass by pass -/

/-- Valid Directory pass: filter out actions that are not valid for
creating directories. -/
def validDirPass (w : World) : List OutAction → Except GoPanic (List OutAction)
  | [] => .ok []
  | a :: rest =>
    if a.map.file.isDir then do
      let r ← getDirOutActionObject w a
      let rest' ← validDirPass w rest
      if r = none then pure rest' else pure (a :: rest')
    else do
      let rest' ← validDirPass w rest
      pure (a :: rest')

structure DirItem where
  conflict : Bool
  obj : Nat
  child : Nat
  deriving Repr, DecidableEq

/-- `action.Map.Selection[0].Object` and `.Children[0]`, as read by the
conflicting-directory pass; missing entries panic in Go. -/
def dirActionKey (a : OutAction) : Except GoPanic (Nat × Nat) :=
  match a.map.selection with
  | sel :: _ =>
    match sel.children with
    | c :: _ => .ok (sel.object, c)
    | [] => .error .indexOutOfRange
  | [] => .error .indexOutOfRange

/-- First half of the conflicting-directory pass: mark directories that
are created multiple times; actions do not conflict when they create the
same directory from the same object and child index. -/
def markConflicts : List OutAction → List (String × DirItem) →
    Except GoPanic (List (String × DirItem))
  | [], dirs => .ok dirs
  | a :: rest, dirs => do
    if a.map.file.isDir then
      let path := getOutActionPath a 0
      let k ← dirActionKey a
      match lookupA dirs path with
      | some item =>
        if k.1 ≠ item.obj ∨ k.2 ≠ item.child then
          markConflicts rest (updateA dirs path { item with conflict := true })
        else
          markConflicts rest dirs
      | none =>
        markConflicts rest (updateA dirs path ⟨false, k.1, k.2⟩)
    else
      markConflicts rest dirs

/-- Is the path marked as a conflicting directory? -/
def isConflictedPath (dirs : List (String × DirItem)) (p : String) : Bool :=
  match lookupA dirs p with
  | some item => item.conflict
  | none => false

/-- Does any of the action's path depths `0 ≤ i < maxDepth` hit a
conflicting directory? -/
def hitsConflict (dirs : List (String × DirItem)) (a : OutAction) : Bool :=
  (List.range (getOutActionPathMaxDepth a)).any (fun i =>
    isConflictedPath dirs (getOutActionPath a i))

/-- Conflicting Directory pass: remove all conflicting directories,
including any actions involving their subdirectories. -/
def conflictDirPass (acts : List OutAction) :
    Except GoPanic (List OutAction) := do
  let dirs ← markConflicts acts []
  .ok (acts.filter (fun a => !hitsConflict dirs a))

/-- The single-child action stored in the `children` override map. -/
def flattenChild (i : Nat) (a : OutAction) (sel : OutSelection) (c : Nat) :
    OrderedOutAction :=
  { priority := i
    action :=
      { depth := a.depth, dir := a.dir
        map := { file := a.map.file
                 selection := [{ object := sel.object, children := [c],
                                 properties := [] }] } } }

/-- The single-property action stored in the `properties` override map. -/
def flattenProp (i : Nat) (a : OutAction) (sel : OutSelection) (p : String) :
    OrderedOutAction :=
  { priority := i
    action :=
      { depth := a.depth, dir := a.dir
        map := { file := a.map.file
                 selection := [{ object := sel.object, children := [],
                                 properties := [p] }] } } }

/-- Child-key override: latter actions override former ones, except
that an existing action at strictly greater depth is kept. -/
def overrideChild (m : List ((Nat × Nat) × OrderedOutAction)) (k : Nat × Nat)
    (v : OrderedOutAction) : List ((Nat × Nat) × OrderedOutAction) :=
  match lookupA m k with
  | some old => if old.action.depth > v.action.depth then m else updateA m k v
  | none => updateA m k v

/-- Conflicting Action pass, accumulation step over one enumerated
action: children keys consult the depth of the stored action, property
keys are overwritten unconditionally (as in the source). -/
def conflictActionStep
    (st : List ((Nat × Nat) × OrderedOutAction) ×
          List ((Nat × String) × OrderedOutAction))
    (ia : Nat × OutAction) :
    List ((Nat × Nat) × OrderedOutAction) ×
    List ((Nat × String) × OrderedOutAction) :=
  ia.2.map.selection.foldl
    (fun st sel =>
      let st1 := sel.children.foldl
        (fun st c => (overrideChild st.1 (sel.object, c) (flattenChild ia.1 ia.2 sel c), st.2)) st
      sel.properties.foldl
        (fun st p => (st.1, updateA st.2 (sel.object, p) (flattenProp ia.1 ia.2 sel p))) st1)
    st

/-- The two override maps built by the conflicting-action pass. -/
def conflictActionMaps (acts : List OutAction) :
    List ((Nat × Nat) × OrderedOutAction) ×
    List ((Nat × String) × OrderedOutAction) :=
  acts.enum.foldl conflictActionStep ([], [])

/-- `SortOutActionsByDepth.Less`. -/
def ltByDepth (a b : OrderedOutAction) : Bool :=
  if a.action.depth = b.action.depth then a.priority < b.priority
  else a.action.depth < b.action.depth

/-- Conflicting Action pass: resolve multiple actions selecting the
same item and separate actions into individual selections.  `πc` and
`πp` are the iteration orders of the two Go maps. -/
def conflictActionPass
    (πc : List ((Nat × Nat) × OrderedOutAction) → List ((Nat × Nat) × OrderedOutAction))
    (πp : List ((Nat × String) × OrderedOutAction) → List ((Nat × String) × OrderedOutAction))
    (acts : List OutAction) : List OutAction :=
  let maps := conflictActionMaps acts
  let sorted := insSort ltByDepth
    ((πc maps.1).map (·.2) ++ (πp maps.2).map (·.2))
  sorted.map (·.action)

/-- Subdirectory pass: remove actions applying to subdirs of an object
that does not become a directory. -/
def subdirPass (acts : List OutAction) : List OutAction :=
  let dirs := acts.filterMap (fun a =>
    if a.map.file.isDir then some (getOutActionPath a 0) else none)
  acts.filter (fun a =>
    (List.range' 1 (a.dir.length - 1)).all (fun i =>
      dirs.contains (getOutActionPath a i)))

/-- Merge pass 1: combine selections of actions that apply to the same
file, one action per file; `π1` is the iteration order of the map. -/
def mergeFilePass (π1 : List (String × OutAction) → List (String × OutAction))
    (acts : List OutAction) : List OutAction :=
  let combine := acts.foldl
    (fun m a =>
      let path := getOutActionPath a 0
      match lookupA m path with
      | some c => updateA m path
          { c with map := { c.map with selection := c.map.selection ++ a.map.selection } }
      | none => updateA m path a)
    []
  (π1 combine).map (·.2)

/-- Merge pass 2: combine selections within each action that apply to
the same object; `π2` is the iteration order of the per-action map. -/
def mergeObjectPass (π2 : List (Nat × OutSelection) → List (Nat × OutSelection))
    (acts : List OutAction) : List OutAction :=
  acts.map (fun a =>
    let combine := a.map.selection.foldl
      (fun m sel =>
        match lookupA m sel.object with
        | some c => updateA m sel.object
            { c with children := c.children ++ sel.children,
                     properties := c.properties ++ sel.properties }
        | none => updateA m sel.object sel)
      []
    { a with map := { a.map with selection := (π2 combine).map (·.2) } })

/-- Go string comparison: lexicographic on the byte sequence (UTF-8
byte order coincides with code-point order, so comparing the decoded
character sequence is equivalent). -/
def charListLt : List Char → List Char → Bool
  | [], [] => false
  | [], _ :: _ => true
  | _ :: _, [] => false
  | a :: as, b :: bs =>
    if a.toNat < b.toNat then true
    else if b.toNat < a.toNat then false
    else charListLt as bs

/-- Go `<` on strings. -/
def strLt (a b : String) : Bool := charListLt a.data b.data

/-- Sort pass: sort actions, selections and items. -/
def sortPass (w : World) (acts : List OutAction) : List OutAction :=
  let acts := acts.map (fun a =>
    let sels := a.map.selection.map (fun s =>
      { s with children := insSort (fun x y => x < y) s.children,
               properties := insSort strLt s.properties })
    { a with map := { a.map with
        selection := insSort (fun s t =>
          getChildIndex w s.object < getChildIndex w t.object) sels } })
  insSort (fun a b => strLt (getOutActionPath a 0) (getOutActionPath b 0)) acts

/-- `syncOutAnalyzeActions`: the six passes in source order.  The `π`
parameters are the iteration orders of the internal Go maps whose
iteration reaches the output. -/
def syncOutAnalyzeActions (w : World)
    (πc : List ((Nat × Nat) × OrderedOutAction) → List ((Nat × Nat) × OrderedOutAction))
    (πp : List ((Nat × String) × OrderedOutAction) → List ((Nat × String) × OrderedOutAction))
    (π1 : List (String × OutAction) → List (String × OutAction))
    (π2 : List (Nat × OutSelection) → List (Nat × OutSelection))
    (acts : List OutAction) : Except GoPanic (List OutAction) := do
  let a1 ← validDirPass w acts
  let a2 ← conflictDirPass a1
  let a3 := conflictActionPass πc πp a2
  let a4 := subdirPass a3
  let a5 := mergeFilePass π1 a4
  let a6 := mergeObjectPass π2 a5
  .ok (sortPass w a6)

/-! ## Association-list lemmas -/

theorem lookupA_updateA_self {κ β : Type} [DecidableEq κ]
    (m : List (κ × β)) (k : κ) (v : β) :
    lookupA (updateA m k v) k = some v := by
  induction m with
  | nil => simp [updateA, lookupA]
  | cons kv m ih =>
    obtain ⟨k', v'⟩ := kv
    simp only [updateA]
    by_cases h : k' = k
    · subst h; simp [lookupA]
    · rw [if_neg h]
      simp only [lookupA, if_neg h]
      exact ih

theorem lookupA_updateA_ne {κ β : Type} [DecidableEq κ]
    (m : List (κ × β)) (k k' : κ) (v : β) (h : k ≠ k') :
    lookupA (updateA m k v) k' = lookupA m k' := by
  induction m with
  | nil => simp [updateA, lookupA, h]
  | cons kv m ih =>
    obtain ⟨k₀, v₀⟩ := kv
    simp only [updateA]
    by_cases h0 : k₀ = k
    · subst h0
      simp only [lookupA, if_neg h]
    · rw [if_neg h0]
      simp only [lookupA]
      by_cases h1 : k₀ = k'
      · simp [h1]
      · simp only [if_neg h1]
        exact ih

/-! ## C7: the valid-directory pass -/

/-- Claim-side condition (spec wording): the map "describes exactly one
child object" — one selection with one child index. -/
def describesOneChild (a : OutAction) : Bool :=
  match a.map.selection with
  | [sel] => sel.children.length = 1
  | _ => false

/-- All `is_dir` actions whose map has exactly one selection with
exactly one child index have that index within bounds. -/
def inBoundsDirActions (w : World) (acts : List OutAction) : Bool :=
  acts.all (fun a =>
    !a.map.file.isDir ||
      (match a.map.selection with
       | [sel] =>
         match sel.children with
         | [c] => c < (w sel.object).children.length
         | _ => true
       | _ => true))

instance exceptDecidableEq {ε α : Type} [DecidableEq ε] [DecidableEq α] :
    DecidableEq (Except ε α) := fun a b =>
  match a, b with
  | .error e1, .error e2 =>
    if h : e1 = e2 then isTrue (by rw [h])
    else isFalse (by intro hc; cases hc; exact h rfl)
  | .error _, .ok _ => isFalse (by intro hc; cases hc)
  | .ok _, .error _ => isFalse (by intro hc; cases hc)
  | .ok a1, .ok a2 =>
    if h : a1 = a2 then isTrue (by rw [h])
    else isFalse (by intro hc; cases hc; exact h rfl)

theorem exceptOkBind {ε α β : Type} (a : α) (f : α → Except ε β) :
    (Except.ok a >>= f : Except ε β) = f a := rfl

theorem exceptErrorBind {ε α β : Type} (e : ε) (f : α → Except ε β) :
    (Except.error e >>= f : Except ε β) = Except.error e := rfl

/-- On in-bounds input, `getDirOutActionObject` never panics and
returns a child exactly when the map describes one child object. -/
theorem getDirOutActionObject_cases (w : World) (a : OutAction)
    (hb : ∀ sel c, a.map.selection = [sel] → sel.children = [c] →
      c < (w sel.object).children.length) :
    (describesOneChild a = false ∧ getDirOutActionObject w a = .ok none) ∨
    (describesOneChild a = true ∧ ∃ x, getDirOutActionObject w a = .ok (some x)) := by
  unfold describesOneChild getDirOutActionObject
  rcases hsel : a.map.selection with _ | ⟨sel, _ | ⟨s2, ss⟩⟩
  · exact Or.inl ⟨rfl, rfl⟩
  · rcases hch : sel.children with _ | ⟨c, _ | ⟨c2, cs⟩⟩
    · exact Or.inl ⟨by simp [hch], by simp [hch]⟩
    · have hc := hb sel c hsel hch
      refine Or.inr ⟨by simp [hch], ⟨(w sel.object).children.get ⟨c, hc⟩, ?_⟩⟩
      simp [hch, hc, List.get_eq_getElem]
    · exact Or.inl ⟨by simp [hch], by simp [hch]⟩
  · exact Or.inl ⟨rfl, rfl⟩

/-- C7 (amended): when every single-selection single-child `is_dir`
action indexes within bounds, the valid-directory pass is total and
keeps exactly the non-directory actions plus the `is_dir` actions that
describe exactly one child object. -/
theorem validDirPass_filter (w : World) (acts : List OutAction)
    (h : inBoundsDirActions w acts = true) :
    validDirPass w acts =
      .ok (acts.filter (fun a => !a.map.file.isDir || describesOneChild a)) := by
  induction acts with
  | nil => simp [validDirPass]
  | cons a rest ih =>
    have ha := List.all_eq_true.mp h a (List.mem_cons_self a rest)
    have hrest : inBoundsDirActions w rest = true := by
      refine List.all_eq_true.mpr ?_
      intro x hx
      exact List.all_eq_true.mp h x (List.mem_cons_of_mem a hx)
    simp only [validDirPass]
    by_cases hdir : a.map.file.isDir = true
    · have hb : ∀ sel c, a.map.selection = [sel] → sel.children = [c] →
          c < (w sel.object).children.length := by
        intro sel c h1 h2
        have ha' := ha
        rw [hdir] at ha'
        simp only [Bool.not_true, Bool.false_or] at ha'
        rw [h1] at ha'
        have ha2 : (match sel.children with
            | [c] => decide (c < (w sel.object).children.length)
            | _ => true) = true := ha'
        rw [h2] at ha2
        exact of_decide_eq_true ha2
      rcases getDirOutActionObject_cases w a hb with ⟨hd, hg⟩ | ⟨hd, x, hg⟩
      · rw [if_pos hdir, hg, exceptOkBind, ih hrest, exceptOkBind]
        simp [List.filter_cons, hdir, hd]
        rfl
      · rw [if_pos hdir, hg, exceptOkBind, ih hrest, exceptOkBind]
        simp [List.filter_cons, hdir, hd]
        rfl
    · rw [if_neg hdir, ih hrest, exceptOkBind]
      simp only [Bool.not_eq_true] at hdir
      simp [List.filter_cons, hdir]
      rfl

/-- A world with no objects: every identifier resolves to an empty
placeholder object. -/
def emptyWorld : World := fun _ => ⟨"", "", [], none⟩

/-- An `is_dir` action selecting child `5` of an object that has no
children: exactly one selection with exactly one child index, but the
index is out of bounds. -/
def oobDirAction : OutAction :=
  { depth := 1, dir := ["out"]
    map := { file := { name := "X", isDir := true }
             selection := [{ object := 0, children := [5], properties := [] }] } }

/-- C7 counterexample: on an out-of-bounds child index the
valid-directory pass does not drop the action — it panics (Go index out
of range), so the pass is not total. -/
theorem validDirPass_oob_panics :
    validDirPass emptyWorld [oobDirAction] = .error .indexOutOfRange ∧
      validDirPass emptyWorld [oobDirAction] ≠ .ok [] := by
  constructor
  · rfl
  · intro h
    rw [show validDirPass emptyWorld [oobDirAction] = .error .indexOutOfRange from rfl] at h
    exact Except.noConfusion h

/-- C7 witness: the amended theorem applied to a list holding an
in-bounds directory action, a malformed directory action (two child
indices, dropped), and a plain file action. -/
def c7WitnessWorld : World := fun n =>
  if n = 0 then ⟨"DataModel", "root", [1], none⟩
  else ⟨"Folder", "A", [], some 0⟩

def c7WitnessActs : List OutAction :=
  [ { depth := 1, dir := ["out"]
      map := { file := { name := "A", isDir := true }
               selection := [{ object := 0, children := [0], properties := [] }] } }
  , { depth := 1, dir := ["out"]
      map := { file := { name := "B", isDir := true }
               selection := [{ object := 0, children := [0, 0], properties := [] }] } }
  , { depth := 2, dir := ["out"]
      map := { file := { name := "f.json", isDir := false }
               selection := [{ object := 0, children := [], properties := ["P"] }] } } ]

theorem validDirPass_filter_witness :
    inBoundsDirActions c7WitnessWorld c7WitnessActs = true ∧
      validDirPass c7WitnessWorld c7WitnessActs =
        .ok (c7WitnessActs.filter
          (fun a => !a.map.file.isDir || describesOneChild a)) :=
  ⟨by decide, validDirPass_filter c7WitnessWorld c7WitnessActs (by decide)⟩

/-! ## C3: the conflicting-directory pass -/

/-- The `(source_object, child_index)` provenance of a directory
action, with a default for malformed actions (which would panic in Go;
the pass only sees actions shaped by the valid-directory pass). -/
def dirKeyD (a : OutAction) : Nat × Nat :=
  match a.map.selection with
  | sel :: _ =>
    match sel.children with
    | c :: _ => (sel.object, c)
    | [] => (0, 0)
  | [] => (0, 0)

/-- Every `is_dir` action has a first selection with a first child
index (the shape guaranteed by the valid-directory pass). -/
def wellShapedDirActions (acts : List OutAction) : Bool :=
  acts.all (fun a =>
    !a.map.file.isDir ||
      (match a.map.selection with
       | sel :: _ => !sel.children.isEmpty
       | [] => false))

theorem dirActionKey_of_wellShaped (a : OutAction)
    (h : (match a.map.selection with
          | sel :: _ => !sel.children.isEmpty
          | [] => false) = true) :
    dirActionKey a = .ok (dirKeyD a) := by
  unfold dirActionKey dirKeyD
  rcases hsel : a.map.selection with _ | ⟨sel, sels⟩
  · rw [hsel] at h
    simp at h
  · rw [hsel] at h
    rcases hch : sel.children with _ | ⟨c, cs⟩
    · simp [hch] at h
    · simp [hch]

/-- The provenance keys of the directory actions producing path `p`, in
input order. -/
def dirKeysAt (acts : List OutAction) (p : String) : List (Nat × Nat) :=
  (acts.filter (fun a =>
    a.map.file.isDir && decide (getOutActionPath a 0 = p))).map dirKeyD

/-- Claim-side content of the conflict map at a path: the first
directory action's provenance, marked conflicted exactly when a later
one at the same path has different provenance. -/
def conflictSpec (acts : List OutAction) (p : String) : Option DirItem :=
  match dirKeysAt acts p with
  | [] => none
  | k :: ks => some ⟨ks.any (fun k2 => k2 ≠ k), k.1, k.2⟩

theorem dirKeysAt_append_single (L : List OutAction) (a : OutAction) (p : String) :
    dirKeysAt (L ++ [a]) p =
      dirKeysAt L p ++
        (if (a.map.file.isDir && decide (getOutActionPath a 0 = p)) = true
         then [dirKeyD a] else []) := by
  unfold dirKeysAt
  rw [List.filter_append, List.map_append]
  congr 1
  by_cases h : (a.map.file.isDir && decide (getOutActionPath a 0 = p)) = true
  · simp [List.filter, h]
  · simp only [Bool.not_eq_true] at h
    simp [List.filter, h]

theorem conflictSpec_append_notdir (L : List OutAction) (a : OutAction) (p : String)
    (h : (a.map.file.isDir && decide (getOutActionPath a 0 = p)) = false) :
    conflictSpec (L ++ [a]) p = conflictSpec L p := by
  unfold conflictSpec
  rw [dirKeysAt_append_single, h]
  simp

/-- `markConflicts` builds exactly the claim-side conflict map. -/
theorem markConflicts_spec (acts : List OutAction)
    (h : wellShapedDirActions acts = true) :
    ∀ (L0 : List OutAction) (dirs0 : List (String × DirItem)),
      (∀ p, lookupA dirs0 p = conflictSpec L0 p) →
      ∃ dirs, markConflicts acts dirs0 = .ok dirs ∧
        ∀ p, lookupA dirs p = conflictSpec (L0 ++ acts) p := by
  induction acts with
  | nil =>
    intro L0 dirs0 hinv
    exact ⟨dirs0, rfl, by simpa using hinv⟩
  | cons a rest ih =>
    intro L0 dirs0 hinv
    have ha := List.all_eq_true.mp h a (List.mem_cons_self a rest)
    have hrest : wellShapedDirActions rest = true :=
      List.all_eq_true.mpr (fun x hx => List.all_eq_true.mp h x (List.mem_cons_of_mem a hx))
    have hside : ∀ p, ¬(getOutActionPath a 0 = p) →
        conflictSpec (L0 ++ [a]) p = conflictSpec L0 p := by
      intro p hp
      apply conflictSpec_append_notdir
      by_cases hd2 : a.map.file.isDir = true
      · simp [hd2, hp]
      · simp only [Bool.not_eq_true] at hd2
        simp [hd2]
    by_cases hdir : a.map.file.isDir = true
    · have hshape : (match a.map.selection with
          | sel :: _ => !sel.children.isEmpty
          | [] => false) = true := by
        rw [hdir] at ha
        simpa using ha
      have hkey := dirActionKey_of_wellShaped a hshape
      have hcontrib : (a.map.file.isDir &&
          decide (getOutActionPath a 0 = getOutActionPath a 0)) = true := by
        simp [hdir]
      rcases hlook : lookupA dirs0 (getOutActionPath a 0) with _ | item
      · -- no previous directory action at this path
        have hspec0 : conflictSpec L0 (getOutActionPath a 0) = none := by
          rw [← hinv _, hlook]
        have hkeys0 : dirKeysAt L0 (getOutActionPath a 0) = [] := by
          unfold conflictSpec at hspec0
          rcases hk : dirKeysAt L0 (getOutActionPath a 0) with _ | ⟨k0, ks⟩
          · rfl
          · rw [hk] at hspec0; exact absurd hspec0 (by simp)
        have hinv1 : ∀ p, lookupA (updateA dirs0 (getOutActionPath a 0)
            ⟨false, (dirKeyD a).1, (dirKeyD a).2⟩) p = conflictSpec (L0 ++ [a]) p := by
          intro p
          by_cases hp : getOutActionPath a 0 = p
          · subst hp
            rw [lookupA_updateA_self]
            unfold conflictSpec
            rw [dirKeysAt_append_single, hkeys0, if_pos hcontrib]
            simp
          · rw [lookupA_updateA_ne _ _ _ _ hp, hinv p, hside p hp]
        obtain ⟨dirs, hrun, hout⟩ := ih hrest (L0 ++ [a]) _ hinv1
        refine ⟨dirs, ?_, ?_⟩
        · simp only [markConflicts]
          rw [if_pos hdir, hkey]
          simp only [exceptOkBind]
          simp only [hlook]
          exact hrun
        · intro p
          rw [hout p, List.append_assoc]
          rfl
      · -- a previous directory action exists at this path
        have hspec0 : conflictSpec L0 (getOutActionPath a 0) = some item := by
          rw [← hinv _, hlook]
        obtain ⟨k0, ks, hk⟩ : ∃ k0 ks, dirKeysAt L0 (getOutActionPath a 0) = k0 :: ks := by
          rcases hk : dirKeysAt L0 (getOutActionPath a 0) with _ | ⟨k0, ks⟩
          · unfold conflictSpec at hspec0
            rw [hk] at hspec0
            exact absurd hspec0 (by simp)
          · exact ⟨k0, ks, rfl⟩
        have hitem : item = ⟨ks.any (fun k2 => k2 ≠ k0), k0.1, k0.2⟩ := by
          unfold conflictSpec at hspec0
          rw [hk] at hspec0
          exact (Option.some_inj.mp hspec0).symm
        by_cases hne : (dirKeyD a).1 ≠ item.obj ∨ (dirKeyD a).2 ≠ item.child
        · have hkk0 : dirKeyD a ≠ k0 := by
            intro hcon
            rcases hne with hne | hne
            · exact hne (by rw [hcon, hitem])
            · exact hne (by rw [hcon, hitem])
          have hinv1 : ∀ p, lookupA (updateA dirs0 (getOutActionPath a 0)
              { item with conflict := true }) p = conflictSpec (L0 ++ [a]) p := by
            intro p
            by_cases hp : getOutActionPath a 0 = p
            · subst hp
              rw [lookupA_updateA_self]
              unfold conflictSpec
              rw [dirKeysAt_append_single, hk, if_pos hcontrib]
              simp only [List.cons_append]
              rw [hitem]
              simp [hkk0]
            · rw [lookupA_updateA_ne _ _ _ _ hp, hinv p, hside p hp]
          obtain ⟨dirs, hrun, hout⟩ := ih hrest (L0 ++ [a]) _ hinv1
          refine ⟨dirs, ?_, ?_⟩
          · simp only [markConflicts]
            rw [if_pos hdir, hkey]
            simp only [exceptOkBind]
            simp only [hlook]
            rw [if_pos hne]
            exact hrun
          · intro p
            rw [hout p, List.append_assoc]
            rfl
        · have hkk0 : dirKeyD a = k0 := by
            push_neg at hne
            have h1 : (dirKeyD a).1 = k0.1 := by rw [hne.1, hitem]
            have h2 : (dirKeyD a).2 = k0.2 := by rw [hne.2, hitem]
            exact Prod.ext h1 h2
          have hinv1 : ∀ p, lookupA dirs0 p = conflictSpec (L0 ++ [a]) p := by
            intro p
            by_cases hp : getOutActionPath a 0 = p
            · subst hp
              rw [hlook]
              unfold conflictSpec
              rw [dirKeysAt_append_single, hk, if_pos hcontrib]
              simp only [List.cons_append]
              rw [hitem]
              simp [hkk0]
            · rw [hinv p, hside p hp]
          obtain ⟨dirs, hrun, hout⟩ := ih hrest (L0 ++ [a]) _ hinv1
          refine ⟨dirs, ?_, ?_⟩
          · simp only [markConflicts]
            rw [if_pos hdir, hkey]
            simp only [exceptOkBind]
            simp only [hlook]
            rw [if_neg hne]
            exact hrun
          · intro p
            rw [hout p, List.append_assoc]
            rfl
    · have hinv1 : ∀ p, lookupA dirs0 p = conflictSpec (L0 ++ [a]) p := by
        intro p
        by_cases hp : getOutActionPath a 0 = p
        · subst hp
          rw [hinv _]
          unfold conflictSpec
          rw [dirKeysAt_append_single]
          rw [if_neg (by
            have hdir' : a.map.file.isDir = false := by
              simpa using hdir
            simp [hdir'])]
          simp
        · rw [hinv p, hside p hp]
      obtain ⟨dirs, hrun, hout⟩ := ih hrest (L0 ++ [a]) _ hinv1
      refine ⟨dirs, ?_, ?_⟩
      · simp only [markConflicts]
        rw [if_neg hdir]
        exact hrun
      · intro p
        rw [hout p, List.append_assoc]
        rfl

/-- The drop criterion of the conflicting-directory pass tests exactly
the action's full path and the joins of the nonempty prefixes of its
directory (its ancestors). -/
theorem hitsConflict_iff (dirs : List (String × DirItem)) (a : OutAction) :
    hitsConflict dirs a = true ↔
      (isConflictedPath dirs (getOutActionPath a 0) = true ∨
        ∃ k, 1 ≤ k ∧ k ≤ a.dir.length ∧
          isConflictedPath dirs (joinPath (a.dir.take k)) = true) := by
  unfold hitsConflict getOutActionPathMaxDepth
  rw [List.any_eq_true]
  constructor
  · rintro ⟨i, hi, hc⟩
    rw [List.mem_range] at hi
    by_cases h0 : i = 0
    · subst h0; exact Or.inl hc
    · refine Or.inr ⟨a.dir.length - i + 1, by omega, by omega, ?_⟩
      have hpath : getOutActionPath a i = joinPath (a.dir.take (a.dir.length - i + 1)) := by
        unfold getOutActionPath
        rw [if_neg h0, min_eq_left (by omega : i ≤ a.dir.length)]
      rw [← hpath]; exact hc
  · rintro (hc | ⟨k, hk1, hk2, hc⟩)
    · exact ⟨0, by simp, hc⟩
    · refine ⟨a.dir.length - k + 1, by rw [List.mem_range]; omega, ?_⟩
      have hpath : getOutActionPath a (a.dir.length - k + 1) = joinPath (a.dir.take k) := by
        unfold getOutActionPath
        rw [if_neg (by omega),
          min_eq_left (by omega : a.dir.length - k + 1 ≤ a.dir.length)]
        congr 2
        omega
      rw [hpath]; exact hc

/-- C3, bundled: the conflict map marks a path exactly when two
directory actions produce it from different `(object, child)` pairs,
and the pass drops exactly the actions whose full path or ancestor
prefix is marked. -/
def ConflictDirPassSpec (acts : List OutAction) : Prop :=
  ∃ dirs, markConflicts acts [] = .ok dirs ∧
    conflictDirPass acts = .ok (acts.filter (fun a => !hitsConflict dirs a)) ∧
    (∀ a1 ∈ acts, ∀ a2 ∈ acts,
      a1.map.file.isDir = true → a2.map.file.isDir = true →
      getOutActionPath a1 0 = getOutActionPath a2 0 →
      dirKeyD a1 ≠ dirKeyD a2 →
      isConflictedPath dirs (getOutActionPath a1 0) = true) ∧
    (∀ p, (∀ k1 ∈ dirKeysAt acts p, ∀ k2 ∈ dirKeysAt acts p, k1 = k2) →
      isConflictedPath dirs p = false) ∧
    (∀ a ∈ acts,
      (isConflictedPath dirs (getOutActionPath a 0) = true ∨
        ∃ k, 1 ≤ k ∧ k ≤ a.dir.length ∧
          isConflictedPath dirs (joinPath (a.dir.take k)) = true) →
      ∀ out, conflictDirPass acts = .ok out → a ∉ out) ∧
    (∀ a ∈ acts,
      ¬(isConflictedPath dirs (getOutActionPath a 0) = true ∨
        ∃ k, 1 ≤ k ∧ k ≤ a.dir.length ∧
          isConflictedPath dirs (joinPath (a.dir.take k)) = true) →
      ∀ out, conflictDirPass acts = .ok out → a ∈ out)

/-- C3: the conflicting-directory pass marks a path conflicted exactly
when two surviving directory actions map it to different
`(source_object, child_index)` pairs, and drops exactly the actions
whose full path or ancestor directory prefix is conflicted. -/
theorem conflictDirPass_spec (acts : List OutAction)
    (h : wellShapedDirActions acts = true) : ConflictDirPassSpec acts := by
  obtain ⟨dirs, hrun, hout⟩ :=
    markConflicts_spec acts h [] [] (fun p => rfl)
  simp only [List.nil_append] at hout
  have hpass : conflictDirPass acts = .ok (acts.filter (fun a => !hitsConflict dirs a)) := by
    unfold conflictDirPass
    rw [hrun]
    rfl
  refine ⟨dirs, hrun, hpass, ?_, ?_, ?_, ?_⟩
  · -- differing provenance at one path forces the conflict mark
    intro a1 ha1 a2 ha2 hd1 hd2 hpeq hkne
    have hm1 : dirKeyD a1 ∈ dirKeysAt acts (getOutActionPath a1 0) := by
      unfold dirKeysAt
      exact List.mem_map_of_mem _ (List.mem_filter.mpr ⟨ha1, by simp [hd1]⟩)
    have hm2 : dirKeyD a2 ∈ dirKeysAt acts (getOutActionPath a1 0) := by
      unfold dirKeysAt
      exact List.mem_map_of_mem _ (List.mem_filter.mpr ⟨ha2, by simp [hd2, hpeq.symm]⟩)
    rcases hk : dirKeysAt acts (getOutActionPath a1 0) with _ | ⟨k0, ks⟩
    · rw [hk] at hm1; simp at hm1
    · rw [hk] at hm1 hm2
      have hex : ∃ kx ∈ ks, kx ≠ k0 := by
        by_cases h1 : dirKeyD a1 = k0
        · have h2ne : dirKeyD a2 ≠ k0 := fun hcon => hkne (h1.trans hcon.symm)
          have h2ks : dirKeyD a2 ∈ ks := by
            rcases List.mem_cons.mp hm2 with hcon | hks
            · exact absurd hcon h2ne
            · exact hks
          exact ⟨_, h2ks, h2ne⟩
        · have h1ks : dirKeyD a1 ∈ ks := by
            rcases List.mem_cons.mp hm1 with hcon | hks
            · exact absurd hcon h1
            · exact hks
          exact ⟨_, h1ks, h1⟩
      obtain ⟨kx, hkx, hkxne⟩ := hex
      unfold isConflictedPath
      rw [hout _]
      unfold conflictSpec
      rw [hk]
      simp only []
      rw [List.any_eq_true]
      exact ⟨kx, hkx, by simp [hkxne]⟩
  · -- agreeing provenance leaves the path unmarked
    intro p hall
    unfold isConflictedPath
    rw [hout p]
    unfold conflictSpec
    rcases hk : dirKeysAt acts p with _ | ⟨k0, ks⟩
    · rfl
    · simp only []
      rw [List.any_eq_false]
      intro kx hkx
      have : kx = k0 :=
        hall kx (by rw [hk]; exact List.mem_cons_of_mem _ hkx) k0
          (by rw [hk]; exact List.mem_cons_self _ _)
      simp [this]
  · -- conflicted paths (and descendants) are dropped
    intro a _ hcond out hpass2
    rw [hpass] at hpass2
    have hfilter : out = acts.filter (fun a => !hitsConflict dirs a) :=
      (Except.ok.injEq _ _ ▸ hpass2.symm : _)
    subst hfilter
    intro hmem
    have := (List.mem_filter.mp hmem).2
    rw [(hitsConflict_iff dirs a).mpr hcond] at this
    simp at this
  · -- unconflicted actions survive
    intro a ha hcond out hpass2
    rw [hpass] at hpass2
    have hfilter : out = acts.filter (fun a => !hitsConflict dirs a) :=
      (Except.ok.injEq _ _ ▸ hpass2.symm : _)
    subst hfilter
    refine List.mem_filter.mpr ⟨ha, ?_⟩
    have : hitsConflict dirs a = false := by
      rcases hhit : hitsConflict dirs a with _ | _
      · rfl
      · exact absurd ((hitsConflict_iff dirs a).mp hhit) hcond
    simp [this]

/-- C3 witness inputs: two directory actions claim path `out/S` from
different children (conflict), a file action beneath `out/S` (dropped),
two directory actions agree on `out/T` (no conflict). -/
def c3Acts : List OutAction :=
  [ { depth := 1, dir := ["out"]
      map := { file := { name := "S", isDir := true }
               selection := [{ object := 1, children := [0], properties := [] }] } }
  , { depth := 1, dir := ["out"]
      map := { file := { name := "S", isDir := true }
               selection := [{ object := 2, children := [0], properties := [] }] } }
  , { depth := 1, dir := ["out", "S"]
      map := { file := { name := "x.lua", isDir := false }
               selection := [{ object := 3, children := [], properties := ["Source"] }] } }
  , { depth := 1, dir := ["out"]
      map := { file := { name := "T", isDir := true }
               selection := [{ object := 1, children := [1], properties := [] }] } }
  , { depth := 2, dir := ["out"]
      map := { file := { name := "T", isDir := true }
               selection := [{ object := 1, children := [1], properties := [] }] } } ]

theorem conflictDirPass_spec_witness :
    wellShapedDirActions c3Acts = true ∧ ConflictDirPassSpec c3Acts :=
  ⟨by decide, conflictDirPass_spec c3Acts (by decide)⟩

/-! ## C1: the conflicting-action (override) pass -/

/-- The child-override entries contributed by one enumerated action, in
traversal order. -/
def childStream (ia : Nat × OutAction) : List ((Nat × Nat) × OrderedOutAction) :=
  ia.2.map.selection.flatMap (fun sel =>
    sel.children.map (fun c => ((sel.object, c), flattenChild ia.1 ia.2 sel c)))

/-- The property-override entries contributed by one enumerated action,
in traversal order. -/
def propStream (ia : Nat × OutAction) : List ((Nat × String) × OrderedOutAction) :=
  ia.2.map.selection.flatMap (fun sel =>
    sel.properties.map (fun p => ((sel.object, p), flattenProp ia.1 ia.2 sel p)))

theorem childFold_pair (ia : Nat × OutAction) (sel : OutSelection)
    (cs : List Nat)
    (st : List ((Nat × Nat) × OrderedOutAction) ×
          List ((Nat × String) × OrderedOutAction)) :
    cs.foldl (fun st c =>
        (overrideChild st.1 (sel.object, c) (flattenChild ia.1 ia.2 sel c), st.2)) st =
      (cs.foldl (fun m c =>
        overrideChild m (sel.object, c) (flattenChild ia.1 ia.2 sel c)) st.1, st.2) := by
  induction cs generalizing st with
  | nil => rfl
  | cons c cs ih => simp only [List.foldl_cons]; exact ih _

theorem propFold_pair (ia : Nat × OutAction) (sel : OutSelection)
    (ps : List String)
    (st : List ((Nat × Nat) × OrderedOutAction) ×
          List ((Nat × String) × OrderedOutAction)) :
    ps.foldl (fun st p =>
        (st.1, updateA st.2 (sel.object, p) (flattenProp ia.1 ia.2 sel p))) st =
      (st.1, ps.foldl (fun m p =>
        updateA m (sel.object, p) (flattenProp ia.1 ia.2 sel p)) st.2) := by
  induction ps generalizing st with
  | nil => rfl
  | cons p ps ih => simp only [List.foldl_cons]; exact ih _

/-- The two-map accumulation of one action splits into independent
folds of its child and property entry streams. -/
theorem conflictActionStep_split
    (st : List ((Nat × Nat) × OrderedOutAction) ×
          List ((Nat × String) × OrderedOutAction))
    (ia : Nat × OutAction) :
    conflictActionStep st ia =
      ((childStream ia).foldl (fun m e => overrideChild m e.1 e.2) st.1,
       (propStream ia).foldl (fun m e => updateA m e.1 e.2) st.2) := by
  unfold conflictActionStep childStream propStream
  generalize ia.2.map.selection = sels
  induction sels generalizing st with
  | nil => rfl
  | cons sel sels ih =>
    simp only [List.foldl_cons, List.flatMap_cons, List.foldl_append]
    rw [childFold_pair, propFold_pair]
    rw [ih]
    congr 1
    · induction sel.children generalizing st with
      | nil => rfl
      | cons c cs ihc => simp only [List.foldl_map, List.foldl_cons]
    · induction sel.properties generalizing st with
      | nil => rfl
      | cons p ps ihp => simp only [List.foldl_map, List.foldl_cons]

/-- The override maps are the folds of the flattened entry streams. -/
theorem conflictActionMaps_split (acts : List OutAction) :
    conflictActionMaps acts =
      ((acts.enum.flatMap childStream).foldl (fun m e => overrideChild m e.1 e.2) [],
       (acts.enum.flatMap propStream).foldl (fun m e => updateA m e.1 e.2) []) := by
  unfold conflictActionMaps
  generalize acts.enum = l
  suffices h : ∀ (st : List ((Nat × Nat) × OrderedOutAction) ×
      List ((Nat × String) × OrderedOutAction)),
      l.foldl conflictActionStep st =
        ((l.flatMap childStream).foldl (fun m e => overrideChild m e.1 e.2) st.1,
         (l.flatMap propStream).foldl (fun m e => updateA m e.1 e.2) st.2) by
    exact h ([], [])
  induction l with
  | nil => intro st; rfl
  | cons ia l ih =>
    intro st
    simp only [List.foldl_cons, List.flatMap_cons, List.foldl_append]
    rw [conflictActionStep_split, ih]

/-- Maximum depth among candidate entries. -/
def maxDepthOf (l : List OrderedOutAction) : Nat :=
  (l.map (fun v => v.action.depth)).foldr max 0

/-- Claim-side winner: among the candidate entries for one key, the
action with greater depth wins; at equal (maximal) depth the latest in
input order wins. -/
def claimWinner (l : List OrderedOutAction) : Option OrderedOutAction :=
  (l.filter (fun v => maxDepthOf l ≤ v.action.depth)).getLast?

theorem foldr_max_init (m : List Nat) (i : Nat) :
    m.foldr max i = max (m.foldr max 0) i := by
  induction m with
  | nil => simp
  | cons x m ih => simp only [List.foldr_cons, ih]; omega

theorem maxDepthOf_concat (l : List OrderedOutAction) (v : OrderedOutAction) :
    maxDepthOf (l ++ [v]) = max (maxDepthOf l) v.action.depth := by
  unfold maxDepthOf
  rw [List.map_append, List.foldr_append, foldr_max_init]
  simp [Nat.max_comm]

theorem mem_le_maxDepthOf (l : List OrderedOutAction) (u : OrderedOutAction)
    (h : u ∈ l) : u.action.depth ≤ maxDepthOf l := by
  induction l with
  | nil => cases h
  | cons x l ih =>
    unfold maxDepthOf
    simp only [List.map_cons, List.foldr_cons]
    rcases List.mem_cons.mp h with h | h
    · subst h; omega
    · have := ih h
      unfold maxDepthOf at this
      omega

theorem exists_mem_maxDepthOf (l : List OrderedOutAction) (h : l ≠ []) :
    ∃ u ∈ l, u.action.depth = maxDepthOf l := by
  induction l with
  | nil => exact absurd rfl h
  | cons x l ih =>
    by_cases hl : l = []
    · subst hl
      exact ⟨x, List.mem_cons_self _ _, by simp [maxDepthOf]⟩
    · obtain ⟨u, hu, hud⟩ := ih hl
      by_cases hx : maxDepthOf l ≤ x.action.depth
      · refine ⟨x, List.mem_cons_self _ _, ?_⟩
        unfold maxDepthOf at hx ⊢
        simp only [List.map_cons, List.foldr_cons]
        omega
      · refine ⟨u, List.mem_cons_of_mem _ hu, ?_⟩
        rw [hud]
        unfold maxDepthOf
        simp only [List.map_cons, List.foldr_cons]
        unfold maxDepthOf at hx
        omega

theorem claimWinner_mem_max (l : List OrderedOutAction) (a : OrderedOutAction)
    (h : claimWinner l = some a) :
    a ∈ l ∧ a.action.depth = maxDepthOf l := by
  unfold claimWinner at h
  have hmem : a ∈ l.filter (fun v => maxDepthOf l ≤ v.action.depth) := by
    have hx : a ∈ (l.filter (fun v => maxDepthOf l ≤ v.action.depth)).getLast? :=
      Option.mem_def.mpr h
    obtain ⟨hne, heq⟩ := List.mem_getLast?_eq_getLast hx
    rw [heq]
    exact List.getLast_mem hne
  obtain ⟨hl, hd⟩ := List.mem_filter.mp hmem
  exact ⟨hl, Nat.le_antisymm (mem_le_maxDepthOf l a hl) (by simpa using hd)⟩

theorem claimWinner_ne_none (l : List OrderedOutAction) (h : l ≠ []) :
    claimWinner l ≠ none := by
  unfold claimWinner
  obtain ⟨u, hu, hud⟩ := exists_mem_maxDepthOf l h
  have : u ∈ l.filter (fun v => maxDepthOf l ≤ v.action.depth) :=
    List.mem_filter.mpr ⟨hu, by simp [hud]⟩
  intro hcon
  rw [List.getLast?_eq_none_iff] at hcon
  rw [hcon] at this
  cases this

/-- The claim's tie-break, one candidate at a time: a later candidate
replaces the stored winner unless the stored winner is strictly
deeper. -/
theorem claimWinner_concat (l : List OrderedOutAction) (v : OrderedOutAction) :
    claimWinner (l ++ [v]) =
      match claimWinner l with
      | none => some v
      | some a => if a.action.depth > v.action.depth then some a else some v := by
  rcases hw : claimWinner l with _ | a
  · simp only [hw]
    have hl : l = [] := by
      by_contra hne
      exact claimWinner_ne_none l hne hw
    subst hl
    unfold claimWinner maxDepthOf
    simp
  · simp only [hw]
    obtain ⟨hmem, hdep⟩ := claimWinner_mem_max l a hw
    by_cases hcmp : a.action.depth > v.action.depth
    · -- old maximum stays strictly larger: the filter is unchanged
      rw [if_pos hcmp]
      unfold claimWinner
      rw [maxDepthOf_concat, List.filter_append]
      have hmax : max (maxDepthOf l) v.action.depth = maxDepthOf l := by omega
      rw [hmax]
      have hvf : List.filter (fun u => maxDepthOf l ≤ u.action.depth) [v] = [] := by
        have hdec : decide (maxDepthOf l ≤ v.action.depth) = false := by
          simp only [decide_eq_false_iff_not]
          omega
        simp only [List.filter, hdec]
      rw [hvf, List.append_nil]
      rw [← hw]
      rfl
    · -- the new candidate reaches the (new) maximum and is last
      rw [if_neg hcmp]
      unfold claimWinner
      rw [maxDepthOf_concat, List.filter_append]
      have hmax : max (maxDepthOf l) v.action.depth = v.action.depth := by omega
      rw [hmax]
      have hvf : List.filter (fun u => v.action.depth ≤ u.action.depth) [v] = [v] := by
        have hdec : decide (v.action.depth ≤ v.action.depth) = true := by
          simp
        simp only [List.filter, hdec]
      rw [hvf, List.getLast?_concat]

theorem lookupA_overrideChild_ne (m : List ((Nat × Nat) × OrderedOutAction))
    (k k' : Nat × Nat) (v : OrderedOutAction) (h : k ≠ k') :
    lookupA (overrideChild m k v) k' = lookupA m k' := by
  unfold overrideChild
  rcases hl : lookupA m k with _ | old
  · simp only [hl]
    exact lookupA_updateA_ne m k k' v h
  · simp only [hl]
    by_cases hc : old.action.depth > v.action.depth
    · rw [if_pos hc]
    · rw [if_neg hc]
      exact lookupA_updateA_ne m k k' v h

/-- Folding the child-override rule over an entry stream computes the
claim-side winner of the candidates for each key. -/
theorem foldOverride_lookup (k : Nat × Nat) :
    ∀ (es : List ((Nat × Nat) × OrderedOutAction))
      (m0 : List ((Nat × Nat) × OrderedOutAction)) (pre : List OrderedOutAction),
      lookupA m0 k = claimWinner pre →
      lookupA (es.foldl (fun m e => overrideChild m e.1 e.2) m0) k =
        claimWinner (pre ++ es.filterMap (fun e => if e.1 = k then some e.2 else none)) := by
  intro es
  induction es with
  | nil =>
    intro m0 pre h
    simpa using h
  | cons e es ih =>
    intro m0 pre h
    simp only [List.foldl_cons, List.filterMap_cons]
    by_cases hk : e.1 = k
    · rw [if_pos hk]
      have hstep : lookupA (overrideChild m0 e.1 e.2) k = claimWinner (pre ++ [e.2]) := by
        rw [claimWinner_concat]
        unfold overrideChild
        rw [hk, h]
        rcases hcw : claimWinner pre with _ | a
        · simp only [hcw]
          exact lookupA_updateA_self m0 k e.2
        · simp only [hcw]
          by_cases hc : a.action.depth > e.2.action.depth
          · rw [if_pos hc, if_pos hc, h, hcw]
          · rw [if_neg hc, if_neg hc]
            exact lookupA_updateA_self m0 k e.2
      have := ih (overrideChild m0 e.1 e.2) (pre ++ [e.2]) hstep
      rw [this, List.append_assoc]
      rfl
    · rw [if_neg hk]
      exact ih (overrideChild m0 e.1 e.2) pre
        (by rw [lookupA_overrideChild_ne m0 e.1 k e.2 hk]; exact h)

/-- Folding the unconditional property-override rule keeps the last
candidate for each key. -/
theorem foldUpdate_lookup (k : Nat × String) :
    ∀ (es : List ((Nat × String) × OrderedOutAction))
      (m0 : List ((Nat × String) × OrderedOutAction)) (pre : List OrderedOutAction),
      lookupA m0 k = pre.getLast? →
      lookupA (es.foldl (fun m e => updateA m e.1 e.2) m0) k =
        (pre ++ es.filterMap (fun e => if e.1 = k then some e.2 else none)).getLast? := by
  intro es
  induction es with
  | nil =>
    intro m0 pre h
    simpa using h
  | cons e es ih =>
    intro m0 pre h
    simp only [List.foldl_cons, List.filterMap_cons]
    by_cases hk : e.1 = k
    · rw [if_pos hk]
      have hstep : lookupA (updateA m0 e.1 e.2) k = (pre ++ [e.2]).getLast? := by
        rw [List.getLast?_concat, hk]
        exact lookupA_updateA_self m0 k e.2
      have := ih (updateA m0 e.1 e.2) (pre ++ [e.2]) hstep
      rw [this, List.append_assoc]
      rfl
    · rw [if_neg hk]
      exact ih (updateA m0 e.1 e.2) pre
        (by rw [lookupA_updateA_ne m0 e.1 k e.2 hk]; exact h)

/-- The candidate entries that select child key `k`, in input order. -/
def childEntriesFor (acts : List OutAction) (k : Nat × Nat) : List OrderedOutAction :=
  (acts.enum.flatMap childStream).filterMap
    (fun e => if e.1 = k then some e.2 else none)

/-- The candidate entries that select property key `k`, in input order. -/
def propEntriesFor (acts : List OutAction) (k : Nat × String) : List OrderedOutAction :=
  (acts.enum.flatMap propStream).filterMap
    (fun e => if e.1 = k then some e.2 else none)

/-- C1 (amended): in the action-override pass, for every
`(source_object, child_index)` key the surviving action is the one the
claim describes (greater depth wins, at equal depth the later input
wins), but for every `(source_object, property_name)` key the later
input always wins, regardless of depth. -/
theorem conflictActionMaps_lookup (acts : List OutAction) :
    (∀ k, lookupA (conflictActionMaps acts).1 k = claimWinner (childEntriesFor acts k)) ∧
    (∀ k, lookupA (conflictActionMaps acts).2 k = (propEntriesFor acts k).getLast?) := by
  rw [conflictActionMaps_split]
  constructor
  · intro k
    have := foldOverride_lookup k (acts.enum.flatMap childStream) [] [] rfl
    simpa [childEntriesFor] using this
  · intro k
    have := foldUpdate_lookup k (acts.enum.flatMap propStream) [] [] rfl
    simpa [propEntriesFor] using this

/-- C1 counterexample input: a depth-2 action touching property `P` of
object `7`, then a depth-1 action touching the same property. -/
def c1Acts : List OutAction :=
  [ { depth := 2, dir := ["out"]
      map := { file := { name := "deep.json", isDir := false }
               selection := [{ object := 7, children := [], properties := ["P"] }] } }
  , { depth := 1, dir := ["out"]
      map := { file := { name := "shallow.json", isDir := false }
               selection := [{ object := 7, children := [], properties := ["P"] }] } } ]

/-- C1 counterexample: for the property key `(7, "P")` the pass keeps
the depth-1 action, not the depth-2 one — the claimed depth-first
tie-break does not hold for property keys. -/
theorem conflictActionMaps_prop_depth_ignored :
    (lookupA (conflictActionMaps c1Acts).2 (7, "P")).map
        (fun v => v.action.depth) = some 1 ∧
      (claimWinner (propEntriesFor c1Acts (7, "P"))).map
        (fun v => v.action.depth) = some 2 ∧
      lookupA (conflictActionMaps c1Acts).2 (7, "P") ≠
        claimWinner (propEntriesFor c1Acts (7, "P")) := by
  refine ⟨by decide, by decide, by decide⟩


/-! ## C2: determinism of the analyzer across map-iteration orders -/

/-- The world for the C2 scenario: a root whose child `1` (named `X`,
at index 0) has one child `2` (named `Y`, at index 0). -/
def c2World : World := fun n =>
  if n = 0 then ⟨"DataModel", "root", [1], none⟩
  else if n = 1 then ⟨"Foo", "X", [2], some 0⟩
  else ⟨"Bar", "Y", [], some 1⟩

/-- Candidate actions produced by the planner for rules
`out Child(*) : Directory()`, `out Property(Foo, P, *) : File(Y/a.json)`
and `out Property(Bar, P, *) : File(a.json)` on `c2World`: two
directory actions, and two file actions whose full paths coincide
(`out/X/Y/a.json`) while selecting different objects whose parent
child-indices are equal. -/
def c2Acts : List OutAction :=
  [ { depth := 1, dir := ["out"]
      map := { file := { name := "X", isDir := true }
               selection := [{ object := 0, children := [0], properties := [] }] } }
  , { depth := 1, dir := ["out", "X"]
      map := { file := { name := "Y", isDir := true }
               selection := [{ object := 1, children := [0], properties := [] }] } }
  , { depth := 1, dir := ["out", "X"]
      map := { file := { name := "Y/a.json", isDir := false }
               selection := [{ object := 1, children := [], properties := ["P"] }] } }
  , { depth := 1, dir := ["out", "X", "Y"]
      map := { file := { name := "a.json", isDir := false }
               selection := [{ object := 2, children := [], properties := ["P"] }] } } ]


/-- The two actions common to both runs. -/
def c2Common : List OutAction :=
  [ { depth := 1, dir := ["out"]
      map := { file := { name := "X", isDir := true }
               selection := [{ object := 0, children := [0], properties := [] }] } }
  , { depth := 1, dir := ["out", "X"]
      map := { file := { name := "Y", isDir := true }
               selection := [{ object := 1, children := [0], properties := [] }] } } ]

/-- The merged file action as produced with the identity iteration
order of the per-action merge map. -/
def c2Merged1 : OutAction :=
  { depth := 1, dir := ["out", "X"]
    map := { file := { name := "Y/a.json", isDir := false }
             selection := [ { object := 1, children := [], properties := ["P"] }
                          , { object := 2, children := [], properties := ["P"] } ] } }

/-- The merged file action as produced with the reversed iteration
order: same visible fields, selections in the other order. -/
def c2Merged2 : OutAction :=
  { depth := 1, dir := ["out", "X"]
    map := { file := { name := "Y/a.json", isDir := false }
             selection := [ { object := 2, children := [], properties := ["P"] }
                          , { object := 1, children := [], properties := ["P"] } ] } }

/-- C2 counterexample: the canonical action list is not identical
across two runs of the analyzer on the same input — permuting the
iteration order of the per-action merge map changes the output. -/
theorem syncOutAnalyzeActions_iteration_order_leaks :
    syncOutAnalyzeActions c2World id id id id c2Acts ≠
      syncOutAnalyzeActions c2World id id id List.reverse c2Acts := by
  decide

/-- C2 (amended): on the exhibited input the two iteration orders give
lists that agree action for action on depth, dir and file, and whose
selection lists are permutations of each other; only the order of the
two selections with equal parent child-index differs.  (Both selected
objects sit at child index `0` of their parents.) -/
theorem syncOutAnalyzeActions_leak_only_selection_order :
    syncOutAnalyzeActions c2World id id id id c2Acts =
        .ok (c2Common ++ [c2Merged1]) ∧
      syncOutAnalyzeActions c2World id id id List.reverse c2Acts =
        .ok (c2Common ++ [c2Merged2]) ∧
      c2Merged1.depth = c2Merged2.depth ∧
      c2Merged1.dir = c2Merged2.dir ∧
      c2Merged1.map.file = c2Merged2.map.file ∧
      c2Merged1.map.selection.Perm c2Merged2.map.selection ∧
      c2Merged1 ≠ c2Merged2 ∧
      getChildIndex c2World 1 = getChildIndex c2World 2 := by
  refine ⟨by decide, by decide, rfl, rfl, rfl, ?_, by decide, by decide⟩
  exact List.Perm.swap _ _ _


/-! ## `argtypes.go`: argument value types

Strings are rune lists; the `n` counts returned by the parsers count
runes (the source counts bytes; the two agree on the single-byte inputs
the rule language uses). -/

structure ArgName where
  any : Bool
  literal : List Char
  deriving Repr, DecidableEq

structure ArgClass where
  name : ArgName
  noSub : Bool
  deriving Repr, DecidableEq

/-- The `Arg` interface: one of the four argument value kinds. -/
inductive Arg where
  | str (s : List Char)
  | name (n : ArgName)
  | cls (c : ArgClass)
  | fileName (s : List Char)
  deriving Repr, DecidableEq

/-- The `(Arg, int, error)` triple returned by a Go `ArgType`; `arg` is
`none` when the source returns a nil interface. -/
structure ArgRes where
  arg : Option Arg
  n : Nat
  err : Option String
  deriving Repr, DecidableEq

/-- `unicode.IsSpace` on the characters the rule language can contain
(ASCII whitespace plus NEL and NBSP). -/
def isGoSpace (c : Char) : Bool :=
  c = ' ' ∨ c = '\t' ∨ c = '\n' ∨ c.toNat = 0x0b ∨ c.toNat = 0x0c ∨
    c = '\r' ∨ c.toNat = 0x85 ∨ c.toNat = 0xA0

/-- `indexFunc`: index of the first rune `r` with `f r = truth`, or the
length of the string. -/
def indexFunc (s : List Char) (f : Char → Bool) (truth : Bool) : Nat :=
  match s with
  | [] => 0
  | c :: rest => if f c = truth then 0 else indexFunc rest f truth + 1

/-- `strings.TrimSpace`. -/
def trimSpace (l : List Char) : List Char :=
  ((l.dropWhile isGoSpace).reverse.dropWhile isGoSpace).reverse

/-- The scan loop of `ArgTypeString`: collects runes until an unescaped
`,` or `)`.  On a backslash the source skips past it, then falls
through to the default case, which advances once more and appends the
backslash rune itself — so `\x` contributes `\` and consumes both
runes, and an escaped terminator does not terminate.  A backslash at
end of input is an error.  Returns (collected, consumed, error). -/
def argStringLoop : List Char → List Char × Nat × Option String
  | [] => ([], 0, none)
  | c :: rest =>
    if c = ',' ∨ c = ')' then ([], 0, none)
    else if c = '\\' then
      match rest with
      | [] => ([], 1, some "reached end-of-line while parsing escape")
      | _ :: rest2 =>
        let r := argStringLoop rest2
        ('\\' :: r.1, r.2.1 + 2, r.2.2)
    else
      let r := argStringLoop rest
      (c :: r.1, r.2.1 + 1, r.2.2)

/-- `ArgTypeString`: on error the source returns a nil `Arg`. -/
def ArgTypeString (s : List Char) : Except GoPanic ArgRes :=
  let r := argStringLoop s
  match r.2.2 with
  | some msg => .ok ⟨none, r.2.1, some msg⟩
  | none => .ok ⟨some (.str (trimSpace r.1)), r.2.1, none⟩

/-- The fallback of `ArgTypeName`: parse the remaining text as an
`ArgString` literal.  The source type-asserts the returned value before
checking the error, so a nil value (escape at end of line) panics. -/
def nameFromString (s' : List Char) (n : Nat) : Except GoPanic ArgRes := do
  let r ← ArgTypeString s'
  match r.arg with
  | some (.str v) => .ok ⟨some (.name ⟨false, v⟩), n + r.n, r.err⟩
  | _ => .error .nilInterfaceConversion

/-- `ArgTypeName`: skip leading whitespace; a bare `*` whose next
non-space rune is `,` or `)` yields `Any`; reading that next rune is an
unchecked index (`s[1+nn]`), a panic when the input ends there;
otherwise the remaining text is an `ArgString` literal. -/
def ArgTypeName (s : List Char) : Except GoPanic ArgRes :=
  let n := indexFunc s isGoSpace false
  match s.drop n with
  | [] => .ok ⟨some (.name ⟨false, []⟩), n, none⟩
  | c :: rest =>
    if c = '*' then
      let nn := indexFunc rest isGoSpace false
      match (c :: rest).drop (1 + nn) with
      | [] => .error .indexOutOfRange
      | d :: _ =>
        if d = ',' ∨ d = ')' then .ok ⟨some (.name ⟨true, []⟩), n + 1 + nn, none⟩
        else nameFromString (c :: rest) n
    else nameFromString (c :: rest) n

/-- `ArgTypeClass`: an optional leading `@` sets `NoSub`; the source
then slices `s = s[n:]` with the already-advanced count `n` (a faithful
copy of the original off-by-one when leading whitespace precedes `@`);
the rest parses as an `ArgName`. -/
def ArgTypeClass (s : List Char) : Except GoPanic ArgRes := do
  let n0 := indexFunc s isGoSpace false
  let s1 := s.drop n0
  match s1 with
  | [] => .ok ⟨some (.cls ⟨⟨false, []⟩, false⟩), n0, none⟩
  | c :: rest =>
    let body : List Char → Nat → Bool → Except GoPanic ArgRes := fun s' n noSub => do
      let r ← ArgTypeName s'
      match r.arg with
      | some (.name nm) => .ok ⟨some (.cls ⟨nm, noSub⟩), n + r.n, r.err⟩
      | _ => .error .nilInterfaceConversion
    if c = '@' then
      body ((c :: rest).drop (n0 + 1)) (n0 + 1) true
    else
      body (c :: rest) n0 false

/-- `ArgTypeFileName`: an `ArgString`, again type-asserted before the
error check. -/
def ArgTypeFileName (s : List Char) : Except GoPanic ArgRes := do
  let r ← ArgTypeString s
  match r.arg with
  | some (.str v) => .ok ⟨some (.fileName v), r.n, r.err⟩
  | _ => .error .nilInterfaceConversion

/-! ## C10: totality of `ArgTypeName` -/

/-- The input after its leading whitespace. -/
def afterSpaces (s : List Char) : List Char :=
  s.drop (indexFunc s isGoSpace false)

/-- After leading whitespace the input is a `*` followed only by
whitespace to the end of the input — the claim's boundary case. -/
def starAtEnd (s : List Char) : Bool :=
  match afterSpaces s with
  | c :: rest => c = '*' && (rest.drop (indexFunc rest isGoSpace false)).isEmpty
  | [] => false

/-- A bare `*` followed, possibly after whitespace, by `,` or `)`. -/
def bareStar (s : List Char) : Bool :=
  match afterSpaces s with
  | c :: rest =>
    c = '*' &&
      (match rest.drop (indexFunc rest isGoSpace false) with
       | d :: _ => d = ',' ∨ d = ')'
       | [] => false)
  | [] => false


/-- Unfolding equation for `ArgTypeName`. -/
theorem ArgTypeName_eq (s : List Char) : ArgTypeName s =
    match s.drop (indexFunc s isGoSpace false) with
    | [] => .ok ⟨some (.name ⟨false, []⟩), indexFunc s isGoSpace false, none⟩
    | c :: rest =>
      if c = '*' then
        match (c :: rest).drop (1 + indexFunc rest isGoSpace false) with
        | [] => .error .indexOutOfRange
        | d :: _ =>
          if d = ',' ∨ d = ')' then
            .ok ⟨some (.name ⟨true, []⟩),
              indexFunc s isGoSpace false + 1 + indexFunc rest isGoSpace false, none⟩
          else nameFromString (c :: rest) (indexFunc s isGoSpace false)
      else nameFromString (c :: rest) (indexFunc s isGoSpace false) := rfl

/-- Structural reading of `starAtEnd`. -/
theorem starAtEnd_elim (s : List Char) (h : starAtEnd s = true) :
    ∃ rest, afterSpaces s = '*' :: rest ∧
      rest.drop (indexFunc rest isGoSpace false) = [] := by
  unfold starAtEnd at h
  rcases ha : afterSpaces s with _ | ⟨c, rest⟩
  · rw [ha] at h; cases h
  · rw [ha] at h
    simp only [Bool.and_eq_true, decide_eq_true_eq, List.isEmpty_iff] at h
    exact ⟨rest, by rw [h.1], h.2⟩

/-- Structural reading of `bareStar`. -/
theorem bareStar_elim (s : List Char) (h : bareStar s = true) :
    ∃ rest d ds, afterSpaces s = '*' :: rest ∧
      rest.drop (indexFunc rest isGoSpace false) = d :: ds ∧
      (d = ',' ∨ d = ')') := by
  unfold bareStar at h
  rcases ha : afterSpaces s with _ | ⟨c, rest⟩
  · rw [ha] at h; cases h
  · rw [ha] at h
    simp only [Bool.and_eq_true, decide_eq_true_eq] at h
    obtain ⟨hc, h2⟩ := h
    rcases hd : rest.drop (indexFunc rest isGoSpace false) with _ | ⟨d, ds⟩
    · rw [hd] at h2; cases h2
    · rw [hd] at h2
      simp only [decide_eq_true_eq] at h2
      exact ⟨rest, d, ds, by rw [hc], hd, h2⟩

/-- C10 (amended): `ArgTypeName` yields `Any` exactly on a bare `*`
followed (possibly after whitespace) by `,` or `)`; when the input ends
(possibly after whitespace) right after the `*` it panics with an index
out of range instead of returning; otherwise it parses the remaining
text as an `ArgString` literal. -/
theorem ArgTypeName_amended (s : List Char) :
    (starAtEnd s = true → ArgTypeName s = .error .indexOutOfRange) ∧
    (bareStar s = true →
      ArgTypeName s = .ok ⟨some (.name ⟨true, []⟩),
        indexFunc s isGoSpace false + 1 +
          indexFunc (afterSpaces s).tail isGoSpace false, none⟩) ∧
    (afterSpaces s = [] →
      ArgTypeName s = .ok ⟨some (.name ⟨false, []⟩),
        indexFunc s isGoSpace false, none⟩) ∧
    (starAtEnd s = false → bareStar s = false → afterSpaces s ≠ [] →
      ArgTypeName s =
        nameFromString (afterSpaces s) (indexFunc s isGoSpace false)) := by
  refine ⟨?_, ?_, ?_, ?_⟩
  · intro h
    obtain ⟨rest, h1, h2⟩ := starAtEnd_elim s h
    rw [ArgTypeName_eq]
    split
    · rename_i heq
      have : afterSpaces s = [] := heq
      rw [this] at h1; cases h1
    · rename_i c rest' heq
      have hce : ('*' :: rest : List Char) = c :: rest' := h1.symm.trans heq
      injection hce with hc hrest
      subst hc; subst hrest
      rw [if_pos rfl]
      have hd : ('*' :: rest).drop (1 + indexFunc rest isGoSpace false) = [] := by
        rw [Nat.add_comm, List.drop_succ_cons, h2]
      rw [hd]
  · intro h
    obtain ⟨rest, d, ds, h1, h2, h3⟩ := bareStar_elim s h
    rw [ArgTypeName_eq]
    split
    · rename_i heq
      have : afterSpaces s = [] := heq
      rw [this] at h1; cases h1
    · rename_i c rest' heq
      have hce : ('*' :: rest : List Char) = c :: rest' := h1.symm.trans heq
      injection hce with hc hrest
      subst hc; subst hrest
      rw [if_pos rfl]
      have hd : ('*' :: rest).drop (1 + indexFunc rest isGoSpace false) = d :: ds := by
        rw [Nat.add_comm, List.drop_succ_cons, h2]
      split
      · rename_i heq2
        rw [hd] at heq2; cases heq2
      · rename_i d' tail heq2
        have hce2 : (d :: ds : List Char) = d' :: tail := hd.symm.trans heq2
        injection hce2 with hdd htail
        subst hdd; subst htail
        rw [if_pos h3, h1]
        rfl
  · intro h
    rw [ArgTypeName_eq]
    split
    · rfl
    · rename_i c rest' heq
      have : afterSpaces s = c :: rest' := heq
      rw [h] at this; cases this
  · intro hse hbs hne
    rw [ArgTypeName_eq]
    split
    · rename_i heq
      exact absurd heq hne
    · rename_i c rest' heq
      have ha : afterSpaces s = c :: rest' := heq
      by_cases hc : c = '*'
      · subst hc
        rw [if_pos rfl]
        split
        · rename_i heq2
          exfalso
          have hd : rest'.drop (indexFunc rest' isGoSpace false) = [] := by
            rw [← heq2, Nat.add_comm, List.drop_succ_cons]
          have : starAtEnd s = true := by
            unfold starAtEnd
            rw [ha]
            simp [hd]
          rw [this] at hse; cases hse
        · rename_i d tail heq2
          have hd : rest'.drop (indexFunc rest' isGoSpace false) = d :: tail := by
            rw [← heq2, Nat.add_comm, List.drop_succ_cons]
          have hnsep : ¬(d = ',' ∨ d = ')') := by
            intro hcon
            have : bareStar s = true := by
              unfold bareStar
              rw [ha]
              simp [hd, hcon]
            rw [this] at hbs; cases hbs
          rw [if_neg hnsep, ha]
      · rw [if_neg hc, ha]

/-- C10 counterexample: on the input `*` — a bare star with the input
ending immediately after it — `ArgTypeName` does not return a result:
it reads past the end of the string (a Go panic), so the parser is not
total. -/
theorem ArgTypeName_star_panics :
    ArgTypeName ['*'] = .error .indexOutOfRange ∧
      starAtEnd ['*'] = true := by
  exact ⟨rfl, rfl⟩

/-- C10 witness: the amended theorem applied to `" * ) tail"` (the
`Any` case) and to `"lit"` (the literal case). -/
theorem ArgTypeName_amended_witness :
    (bareStar " * )".data = true ∧
      ArgTypeName " * )".data = .ok ⟨some (.name ⟨true, []⟩),
        indexFunc " * )".data isGoSpace false + 1 +
          indexFunc (afterSpaces " * )".data).tail isGoSpace false, none⟩) ∧
    (starAtEnd "lit,x".data = false ∧ bareStar "lit,x".data = false ∧
      afterSpaces "lit,x".data ≠ [] ∧
      ArgTypeName "lit,x".data =
        nameFromString (afterSpaces "lit,x".data)
          (indexFunc "lit,x".data isGoSpace false)) :=
  ⟨⟨by decide, (ArgTypeName_amended " * )".data).2.1 (by decide)⟩,
   ⟨by decide, by decide, by decide,
     (ArgTypeName_amended "lit,x".data).2.2.2 (by decide) (by decide) (by decide)⟩⟩


/-! ## C9: the `ArgFileName.Match` glob matcher -/

/-- The inner loop over leading `*`s of the pattern: reports whether at
least one star was consumed and returns the remainder. -/
def consumeStars : List Char → Bool × List Char
  | [] => (false, [])
  | c :: rest =>
    if c = '*' then (true, (consumeStars rest).2)
    else (false, c :: rest)

/-- The chunk scan: collects pattern bytes up to the next unescaped
`*`, resolving `\x` to the literal `x`; `none` models the
`return false // pattern error` on a backslash at pattern end. -/
def chunkScan : List Char → Option (List Char × List Char)
  | [] => some ([], [])
  | c :: rest =>
    if c = '\\' then
      match rest with
      | [] => none
      | e :: rest2 => (chunkScan rest2).map (fun p => (e :: p.1, p.2))
    else if c = '*' then some ([], c :: rest)
    else (chunkScan rest).map (fun p => (c :: p.1, p.2))

theorem consumeStars_false (arg : List Char) (h : (consumeStars arg).1 = false) :
    (consumeStars arg).2 = arg := by
  cases arg with
  | nil => rfl
  | cons c rest =>
    unfold consumeStars at h ⊢
    by_cases hc : c = '*'
    · rw [if_pos hc] at h; cases h
    · rw [if_neg hc]

theorem consumeStars_length (arg : List Char) :
    (consumeStars arg).2.length ≤ arg.length := by
  induction arg with
  | nil => simp [consumeStars]
  | cons c rest ih =>
    unfold consumeStars
    by_cases hc : c = '*'
    · rw [if_pos hc]
      simp only [List.length_cons]
      omega
    · rw [if_neg hc]

theorem consumeStars_length_lt (arg : List Char) (h : (consumeStars arg).1 = true) :
    (consumeStars arg).2.length < arg.length := by
  cases arg with
  | nil => cases h
  | cons c rest =>
    unfold consumeStars at h ⊢
    by_cases hc : c = '*'
    · rw [if_pos hc]
      simp only [List.length_cons]
      have := consumeStars_length rest
      omega
    · rw [if_neg hc] at h; cases h

theorem consumeStars_no_star (arg : List Char) :
    ∀ c rest, (consumeStars arg).2 = c :: rest → c ≠ '*' := by
  induction arg with
  | nil => intro c rest h; cases h
  | cons a arest ih =>
    intro c rest h
    unfold consumeStars at h
    by_cases ha : a = '*'
    · rw [if_pos ha] at h
      exact ih c rest h
    · rw [if_neg ha] at h
      cases h
      exact ha

theorem chunkScan_length (s : List Char) :
    ∀ chunk arg2, chunkScan s = some (chunk, arg2) →
      chunk.length + arg2.length ≤ s.length := by
  induction s using chunkScan.induct with
  | case1 =>
    intro chunk arg2 h
    cases h
    simp
  | case2 =>
    intro chunk arg2 h
    exact Option.noConfusion h
  | case3 e rest2 ih =>
    intro chunk arg2 h
    have h' : Option.map (fun p : List Char × List Char => (e :: p.1, p.2))
        (chunkScan rest2) = some (chunk, arg2) := h
    rcases hcs : chunkScan rest2 with _ | ⟨ch2, a2⟩
    · rw [hcs] at h'; exact Option.noConfusion h'
    · rw [hcs] at h'
      cases Option.some.inj h'
      have := ih _ _ hcs
      simp only [List.length_cons]
      omega
  | case4 rest2 h1 =>
    intro chunk arg2 h
    unfold chunkScan at h
    rw [if_neg h1, if_pos rfl] at h
    cases Option.some.inj h
    simp
  | case5 e rest2 h1 h2 ih =>
    intro chunk arg2 h
    unfold chunkScan at h
    rw [if_neg h1, if_neg h2] at h
    rcases hcs : chunkScan rest2 with _ | ⟨ch2, a2⟩
    · rw [hcs] at h; exact Option.noConfusion h
    · rw [hcs] at h
      cases Option.some.inj h
      have := ih _ _ hcs
      simp only [List.length_cons]
      omega

theorem chunkScan_head_ne_star (c : Char) (rest : List Char)
    (hc : c ≠ '*') :
    ∀ chunk arg2, chunkScan (c :: rest) = some (chunk, arg2) → chunk ≠ [] := by
  intro chunk arg2 h
  by_cases hb : c = '\\'
  · subst hb
    cases rest with
    | nil => exact Option.noConfusion h
    | cons e rest2 =>
      have h' : Option.map (fun p : List Char × List Char => (e :: p.1, p.2))
          (chunkScan rest2) = some (chunk, arg2) := h
      rcases hcs : chunkScan rest2 with _ | ⟨ch2, a2⟩
      · rw [hcs] at h'; exact Option.noConfusion h'
      · rw [hcs] at h'
        cases Option.some.inj h'
        simp
  · unfold chunkScan at h
    rw [if_neg hb, if_neg hc] at h
    rcases hcs : chunkScan rest with _ | ⟨ch2, a2⟩
    · rw [hcs] at h; exact Option.noConfusion h
    · rw [hcs] at h
      cases Option.some.inj h
      simp

/-- The linear scan of the star branch: `s` ranges over the successive
suffixes `name[i+1:]`; on the first occurrence of the (nonempty) chunk
the loop either delivers the tail to the continuation `k`, or — when
the pattern is exhausted (`last`) and the tail is nonempty — keeps
scanning for an occurrence at the very end. -/
def starSearch (k : List Char → Bool) (last : Bool) (ch : Char)
    (chrest : List Char) : List Char → Bool
  | [] => false
  | c :: srest =>
    if (ch :: chrest).isPrefixOf (c :: srest) then
      if last ∧ (c :: srest).drop (chrest.length + 1) ≠ [] then
        starSearch k last ch chrest srest
      else k ((c :: srest).drop (chrest.length + 1))
    else starSearch k last ch chrest srest

/-- The pattern loop of `ArgFileName.Match`. -/
def matchLoop : List Char → List Char → Bool
  | [], name => name.isEmpty
  | a :: arest, name =>
    let sa := consumeStars (a :: arest)
    match hcs : chunkScan sa.2 with
    | none => false
    | some (chunk, arg2) =>
      if sa.1 ∧ chunk = [] then true
      else if chunk.isPrefixOf name ∧ (name.length = chunk.length ∨ arg2 ≠ []) then
        matchLoop arg2 (name.drop chunk.length)
      else if sa.1 then
        match chunk with
        | [] => true
        | ch :: chrest =>
          starSearch (fun t => matchLoop arg2 t) (arg2 = []) ch chrest (name.drop 1)
      else false
termination_by arg _ => arg.length
decreasing_by
  · have hsa2 : sa.2 = (consumeStars (a :: arest)).2 := rfl
    rw [hsa2] at hcs
    have h2 := chunkScan_length _ _ _ hcs
    have h1 := consumeStars_length (a :: arest)
    rcases hstar : (consumeStars (a :: arest)).1 with _ | _
    · have heq := consumeStars_false _ hstar
      rcases hd : (consumeStars (a :: arest)).2 with _ | ⟨c, rest⟩
      · rw [hd] at heq; exact absurd heq (by simp)
      · have hne := consumeStars_no_star (a :: arest) c rest hd
        rw [hd] at hcs h2 heq
        have hchunk := chunkScan_head_ne_star c rest hne _ _ hcs
        have hpos := List.length_pos.mpr hchunk
        have hle : (c :: rest).length = (a :: arest).length := by rw [heq]
        simp only [List.length_cons] at h2 hle ⊢
        omega
    · have h1' := consumeStars_length_lt _ hstar
      rw [hsa2] at h2
      omega
  · have hsa2 : sa.2 = (consumeStars (a :: arest)).2 := rfl
    rw [hsa2] at hcs
    have h2 := chunkScan_length _ _ _ hcs
    have h1 := consumeStars_length (a :: arest)
    rcases hstar : (consumeStars (a :: arest)).1 with _ | _
    · have heq := consumeStars_false _ hstar
      rcases hd : (consumeStars (a :: arest)).2 with _ | ⟨c, rest⟩
      · rw [hd] at heq; exact absurd heq (by simp)
      · have hne := consumeStars_no_star (a :: arest) c rest hd
        rw [hd] at hcs h2 heq
        have hchunk := chunkScan_head_ne_star c rest hne _ _ hcs
        have hpos := List.length_pos.mpr hchunk
        have hle : (c :: rest).length = (a :: arest).length := by rw [heq]
        simp only [List.length_cons] at h2 hle ⊢
        omega
    · have h1' := consumeStars_length_lt _ hstar
      rw [hsa2] at h2
      omega

/-- `ArgFileName.Match`. -/
def Match (arg name : List Char) : Bool :=
  if arg = ['*'] then true
  else matchLoop arg name

/-- Spec side: tokens of the glob language of the spec — a star or a
literal byte (an escaped byte lexes to a literal). -/
inductive GlobTok where
  | lit : Char → GlobTok
  | star : GlobTok
deriving DecidableEq

/-- Spec side: the lexer of the spec's glob language: `\` escapes the
next byte to a literal (and fails at pattern end), `*` is a star, any
other byte is a literal. -/
def lexGlob : List Char → Option (List GlobTok)
  | [] => some []
  | c :: rest =>
    if c = '\\' then
      match rest with
      | [] => none
      | e :: rest2 => (lexGlob rest2).map (fun ts => GlobTok.lit e :: ts)
    else if c = '*' then (lexGlob rest).map (fun ts => GlobTok.star :: ts)
    else (lexGlob rest).map (fun ts => GlobTok.lit c :: ts)

/-- Spec side: the language of a token list — a star matches any run
(including the empty run) of any characters, a literal matches exactly
itself. -/
inductive GlobMatch : List GlobTok → List Char → Prop where
  | nil : GlobMatch [] []
  | lit : ∀ (c : Char) (ts : List GlobTok) (name : List Char),
      GlobMatch ts name → GlobMatch (GlobTok.lit c :: ts) (c :: name)
  | starSkip : ∀ (ts : List GlobTok) (name : List Char),
      GlobMatch ts name → GlobMatch (GlobTok.star :: ts) name
  | starCons : ∀ (ts : List GlobTok) (c : Char) (name : List Char),
      GlobMatch (GlobTok.star :: ts) name → GlobMatch (GlobTok.star :: ts) (c :: name)

/-- Executable matcher for the spec's token language. -/
def tmatch : List GlobTok → List Char → Bool
  | [], name => name.isEmpty
  | GlobTok.lit _ :: _, [] => false
  | GlobTok.lit c :: ts, d :: drest => c == d && tmatch ts drest
  | GlobTok.star :: ts, [] => tmatch ts []
  | GlobTok.star :: ts, d :: drest =>
    tmatch ts (d :: drest) || tmatch (GlobTok.star :: ts) drest
termination_by ts name => (ts.length, name.length)

theorem boolEqOfIff {a b : Bool} (h : a = true ↔ b = true) : a = b := by
  cases a <;> cases b <;> simp_all

theorem tmatch_of_globMatch (ts : List GlobTok) (name : List Char)
    (h : GlobMatch ts name) : tmatch ts name = true := by
  induction h with
  | nil => simp [tmatch]
  | lit c ts name _ ih => simp [tmatch, ih]
  | starSkip ts name _ ih =>
    cases name with
    | nil => simpa [tmatch] using ih
    | cons d dr => simp [tmatch]; exact Or.inl ih
  | starCons ts c name _ ih => simp [tmatch]; exact Or.inr ih

theorem globMatch_of_tmatch : ∀ (ts : List GlobTok) (name : List Char),
    tmatch ts name = true → GlobMatch ts name := by
  intro ts name
  induction ts, name using tmatch.induct with
  | case1 name =>
    intro h
    simp only [tmatch] at h
    rw [List.isEmpty_iff] at h
    subst h
    exact GlobMatch.nil
  | case2 c ts =>
    intro h
    simp [tmatch] at h
  | case3 c ts d drest ih =>
    intro h
    simp only [tmatch, Bool.and_eq_true, beq_iff_eq] at h
    rcases h with ⟨hc, ht⟩
    subst hc
    exact GlobMatch.lit c ts drest (ih ht)
  | case4 ts ih =>
    intro h
    simp only [tmatch] at h
    exact GlobMatch.starSkip ts [] (ih h)
  | case5 ts d drest ih1 ih2 =>
    intro h
    simp only [tmatch, Bool.or_eq_true] at h
    rcases h with h | h
    · exact GlobMatch.starSkip ts (d :: drest) (ih1 h)
    · exact GlobMatch.starCons ts d drest (ih2 h)



theorem tmatch_star_iff (ts : List GlobTok) (name : List Char) :
    tmatch (GlobTok.star :: ts) name = true ↔
      ∃ j, tmatch ts (name.drop j) = true := by
  induction name with
  | nil =>
    simp only [tmatch, List.drop_nil]
    exact ⟨fun h => ⟨0, h⟩, fun ⟨_, h⟩ => h⟩
  | cons d drest ih =>
    simp only [tmatch, Bool.or_eq_true]
    constructor
    · rintro (h | h)
      · exact ⟨0, h⟩
      · rcases ih.mp h with ⟨j, hj⟩
        exact ⟨j + 1, by simpa using hj⟩
    · rintro ⟨j, hj⟩
      cases j with
      | zero => exact Or.inl hj
      | succ j' =>
        refine Or.inr (ih.mpr ⟨j', ?_⟩)
        simpa using hj


theorem tmatch_star_drop (ts : List GlobTok) (name : List Char) (j : Nat)
    (h : tmatch (GlobTok.star :: ts) (name.drop j) = true) :
    tmatch (GlobTok.star :: ts) name = true := by
  rcases (tmatch_star_iff ts (name.drop j)).mp h with ⟨j', hj'⟩
  refine (tmatch_star_iff ts name).mpr ⟨j + j', ?_⟩
  rwa [List.drop_drop] at hj'

theorem tmatch_star_nil_ts (name : List Char) :
    tmatch [GlobTok.star] name = true :=
  (tmatch_star_iff [] name).mpr
    ⟨name.length, by simp [tmatch, List.drop_length]⟩

theorem tmatch_star_collapse (ts : List GlobTok) (name : List Char) :
    tmatch (GlobTok.star :: GlobTok.star :: ts) name =
      tmatch (GlobTok.star :: ts) name := by
  refine boolEqOfIff ?_
  rw [tmatch_star_iff, tmatch_star_iff]
  constructor
  · rintro ⟨j, hj⟩
    rcases (tmatch_star_iff ts (name.drop j)).mp hj with ⟨j', hj'⟩
    rw [List.drop_drop] at hj'
    exact ⟨j + j', hj'⟩
  · rintro ⟨j, hj⟩
    exact ⟨j, (tmatch_star_iff ts (name.drop j)).mpr ⟨0, by simpa using hj⟩⟩

theorem tmatch_lits (chunk : List Char) (ts : List GlobTok) (name : List Char) :
    tmatch (chunk.map GlobTok.lit ++ ts) name =
      (chunk.isPrefixOf name && tmatch ts (name.drop chunk.length)) := by
  induction chunk generalizing name with
  | nil => simp [List.isPrefixOf]
  | cons c crest ih =>
    cases name with
    | nil => simp [tmatch, List.isPrefixOf]
    | cons d drest =>
      simp only [List.map_cons, List.cons_append, tmatch, List.isPrefixOf,
        List.length_cons, List.drop_succ_cons, ih drest, Bool.and_assoc]

theorem optMapSome {α β : Type} (f : α → β) (x : α) :
    (some x).map f = some (f x) := rfl

theorem optMapNone {α β : Type} (f : α → β) :
    (Option.map f (none : Option α)) = (none : Option β) := rfl

theorem lexGlob_bslash (e : Char) (rest2 : List Char) :
    lexGlob ('\\' :: e :: rest2) =
      (lexGlob rest2).map (fun ts => GlobTok.lit e :: ts) := rfl

theorem lexGlob_bslash_nil : lexGlob ['\\'] = none := rfl

theorem lexGlob_star (rest : List Char) :
    lexGlob ('*' :: rest) = (lexGlob rest).map (fun ts => GlobTok.star :: ts) := by
  conv_lhs => unfold lexGlob
  rw [if_neg (by decide), if_pos rfl]

theorem lexGlob_other (c : Char) (rest : List Char) (h1 : ¬c = '\\') (h2 : ¬c = '*') :
    lexGlob (c :: rest) = (lexGlob rest).map (fun ts => GlobTok.lit c :: ts) := by
  conv_lhs => unfold lexGlob
  rw [if_neg h1, if_neg h2]


theorem consumeStars_star (rest : List Char) :
    consumeStars ('*' :: rest) = (true, (consumeStars rest).2) := by
  conv_lhs => unfold consumeStars
  rw [if_pos rfl]

theorem consumeStars_star_fst (rest : List Char) :
    (consumeStars ('*' :: rest)).1 = true := by
  rw [consumeStars_star]

theorem consumeStars_star_snd (rest : List Char) :
    (consumeStars ('*' :: rest)).2 = (consumeStars rest).2 := by
  rw [consumeStars_star]

theorem consumeStars_other (c : Char) (rest : List Char) (h : ¬c = '*') :
    consumeStars (c :: rest) = (false, c :: rest) := by
  conv_lhs => unfold consumeStars
  rw [if_neg h]

/-- Spec side, packaged: the pattern lexes and the token matcher
accepts, as one Bool. -/
def semMatch (arg name : List Char) : Bool :=
  match lexGlob arg with
  | none => false
  | some ts => tmatch ts name

theorem semMatchStar_consumeStars (arg name : List Char) :
    (match lexGlob arg with
     | none => false
     | some ts => tmatch (GlobTok.star :: ts) name) =
    (match lexGlob (consumeStars arg).2 with
     | none => false
     | some ts => tmatch (GlobTok.star :: ts) name) := by
  induction arg with
  | nil => rfl
  | cons c rest ih =>
    by_cases hc : c = '*'
    · subst hc
      rw [lexGlob_star, consumeStars_star_snd, ← ih]
      cases hl : lexGlob rest with
      | none => rfl
      | some ts =>
        rw [optMapSome]
        exact tmatch_star_collapse ts name
    · rw [consumeStars_other c rest hc]


theorem ifTrueEq {α : Sort 1} (a b : α) : (if true = true then a else b) = a := rfl

theorem ifFalseEq {α : Sort 1} (a b : α) : (if false = true then a else b) = b := rfl

theorem semMatch_eq_consumeStars (a : Char) (arest : List Char) (name : List Char) :
    semMatch (a :: arest) name =
      (match lexGlob (consumeStars (a :: arest)).2 with
       | none => false
       | some ts =>
         tmatch (if (consumeStars (a :: arest)).1 then GlobTok.star :: ts else ts)
           name) := by
  by_cases ha : a = '*'
  · subst ha
    rw [consumeStars_star_snd, consumeStars_star_fst]
    unfold semMatch
    simp only [eq_self_iff_true, if_true]
    rw [lexGlob_star, ← semMatchStar_consumeStars arest name]
    cases hl : lexGlob arest with
    | none => rfl
    | some ts => rw [optMapSome]
  · rw [consumeStars_other a arest ha]
    unfold semMatch
    cases hl : lexGlob (a :: arest) with
    | none => rfl
    | some ts => rfl

theorem chunkScan_none_lexGlob (s : List Char) :
    chunkScan s = none → lexGlob s = none := by
  induction s using chunkScan.induct with
  | case1 => intro h; exact Option.noConfusion h
  | case2 => intro _; exact lexGlob_bslash_nil
  | case3 e rest2 ih =>
    intro h
    have h' : Option.map (fun p : List Char × List Char => (e :: p.1, p.2))
        (chunkScan rest2) = none := h
    rw [lexGlob_bslash]
    rcases hcs : chunkScan rest2 with _ | p
    · rw [ih hcs]; rfl
    · rw [hcs] at h'; exact Option.noConfusion h'
  | case4 rest2 h1 =>
    intro h
    unfold chunkScan at h
    rw [if_neg h1, if_pos rfl] at h
    exact Option.noConfusion h
  | case5 e rest2 h1 h2 ih =>
    intro h
    unfold chunkScan at h
    rw [if_neg h1, if_neg h2] at h
    rw [lexGlob_other e rest2 h1 h2]
    rcases hcs : chunkScan rest2 with _ | p
    · rw [ih hcs]; rfl
    · rw [hcs] at h; exact Option.noConfusion h

theorem chunkScan_some_lexGlob (s : List Char) :
    ∀ chunk arg2, chunkScan s = some (chunk, arg2) →
      lexGlob s = (lexGlob arg2).map (fun ts => chunk.map GlobTok.lit ++ ts) := by
  induction s using chunkScan.induct with
  | case1 =>
    intro chunk arg2 h
    cases Option.some.inj h
    rfl
  | case2 => intro chunk arg2 h; exact Option.noConfusion h
  | case3 e rest2 ih =>
    intro chunk arg2 h
    have h' : Option.map (fun p : List Char × List Char => (e :: p.1, p.2))
        (chunkScan rest2) = some (chunk, arg2) := h
    rcases hcs : chunkScan rest2 with _ | ⟨c2, a2⟩
    · rw [hcs] at h'; exact Option.noConfusion h'
    · rw [hcs] at h'
      cases Option.some.inj h'
      rw [lexGlob_bslash, ih _ _ hcs]
      cases lexGlob a2 with
      | none => rfl
      | some ts2 => rfl
  | case4 rest2 h1 =>
    intro chunk arg2 h
    unfold chunkScan at h
    rw [if_neg h1, if_pos rfl] at h
    cases Option.some.inj h
    cases lexGlob ('*' :: rest2) with
    | none => rfl
    | some ts => rfl
  | case5 e rest2 h1 h2 ih =>
    intro chunk arg2 h
    unfold chunkScan at h
    rw [if_neg h1, if_neg h2] at h
    rcases hcs : chunkScan rest2 with _ | ⟨c2, a2⟩
    · rw [hcs] at h; exact Option.noConfusion h
    · rw [hcs] at h
      cases Option.some.inj h
      rw [lexGlob_other e rest2 h1 h2, ih _ _ hcs]
      cases lexGlob a2 with
      | none => rfl
      | some ts2 => rfl

theorem chunkScan_arg2_shape (s : List Char) :
    ∀ chunk arg2, chunkScan s = some (chunk, arg2) →
      arg2 = [] ∨ ∃ r, arg2 = '*' :: r := by
  induction s using chunkScan.induct with
  | case1 =>
    intro chunk arg2 h
    cases Option.some.inj h
    exact Or.inl rfl
  | case2 => intro chunk arg2 h; exact Option.noConfusion h
  | case3 e rest2 ih =>
    intro chunk arg2 h
    have h' : Option.map (fun p : List Char × List Char => (e :: p.1, p.2))
        (chunkScan rest2) = some (chunk, arg2) := h
    rcases hcs : chunkScan rest2 with _ | ⟨c2, a2⟩
    · rw [hcs] at h'; exact Option.noConfusion h'
    · rw [hcs] at h'
      cases Option.some.inj h'
      exact ih _ _ hcs
  | case4 rest2 h1 =>
    intro chunk arg2 h
    unfold chunkScan at h
    rw [if_neg h1, if_pos rfl] at h
    cases Option.some.inj h
    exact Or.inr ⟨rest2, rfl⟩
  | case5 e rest2 h1 h2 ih =>
    intro chunk arg2 h
    unfold chunkScan at h
    rw [if_neg h1, if_neg h2] at h
    rcases hcs : chunkScan rest2 with _ | ⟨c2, a2⟩
    · rw [hcs] at h; exact Option.noConfusion h
    · rw [hcs] at h
      cases Option.some.inj h
      exact ih _ _ hcs


theorem matchLoop_nil (name : List Char) : matchLoop [] name = name.isEmpty := by
  rw [matchLoop.eq_def]

theorem matchLoop_cons_none (a : Char) (arest name : List Char)
    (hc : chunkScan (consumeStars (a :: arest)).2 = none) :
    matchLoop (a :: arest) name = false := by
  rw [matchLoop.eq_def]
  simp only [hc]
  split
  · rfl
  · rename_i chunk arg2 heq
    rw [hc] at heq
    exact Option.noConfusion heq

/-- The star-retry branch of the match loop, split out so statements
about it do not depend on the chunk-scan equation. -/
def starBranch (arg2 chunk name : List Char) : Bool :=
  match chunk with
  | [] => true
  | ch :: chrest =>
    starSearch (matchLoop arg2) (decide (arg2 = [])) ch chrest (name.drop 1)

theorem matchLoop_cons_some (a : Char) (arest name chunk arg2 : List Char)
    (hc : chunkScan (consumeStars (a :: arest)).2 = some (chunk, arg2)) :
    matchLoop (a :: arest) name =
      (if (consumeStars (a :: arest)).1 = true ∧ chunk = [] then true
       else if chunk.isPrefixOf name = true ∧
           (name.length = chunk.length ∨ arg2 ≠ []) then
         matchLoop arg2 (name.drop chunk.length)
       else if (consumeStars (a :: arest)).1 = true then
         starBranch arg2 chunk name
       else false) := by
  rw [matchLoop.eq_def]
  simp only [hc]
  split
  · rename_i heq
    rw [hc] at heq
    exact Option.noConfusion heq
  · rename_i chunk' arg2' heq
    rw [hc] at heq
    cases Option.some.inj heq
    cases chunk with
    | nil => rfl
    | cons ch chrest => rfl


theorem starSearch_spec (k : List Char → Bool) (last : Bool) (ch : Char)
    (chrest : List Char)
    (hk : if last then ∀ t : List Char, k t = t.isEmpty
      else ∀ (t : List Char) (j : Nat), k (t.drop j) = true → k t = true) :
    ∀ s : List Char, (starSearch k last ch chrest s = true ↔
      ∃ j, (ch :: chrest).isPrefixOf (s.drop j) = true ∧
        k ((s.drop j).drop (chrest.length + 1)) = true) := by
  intro s
  induction s with
  | nil =>
    constructor
    · intro h
      rw [show starSearch k last ch chrest [] = false from rfl] at h
      exact Bool.noConfusion h
    · rintro ⟨j, hpre, _⟩
      rw [List.drop_nil] at hpre
      simp [List.isPrefixOf] at hpre
  | cons c srest ih =>
    have hunf : starSearch k last ch chrest (c :: srest) =
        (if (ch :: chrest).isPrefixOf (c :: srest) then
          if last ∧ (c :: srest).drop (chrest.length + 1) ≠ [] then
            starSearch k last ch chrest srest
          else k ((c :: srest).drop (chrest.length + 1))
        else starSearch k last ch chrest srest) := rfl
    rw [hunf]
    by_cases hpre0 : (ch :: chrest).isPrefixOf (c :: srest) = true
    · rw [if_pos hpre0]
      by_cases hskip : last = true ∧ (c :: srest).drop (chrest.length + 1) ≠ []
      · rw [if_pos hskip, ih]
        constructor
        · rintro ⟨j, h1, h2⟩
          exact ⟨j + 1, by simpa using h1, by simpa using h2⟩
        · rintro ⟨j, h1, h2⟩
          cases j with
          | zero =>
            exfalso
            rcases hskip with ⟨hl, hne⟩
            have hk' : ∀ t : List Char, k t = List.isEmpty t := by
              rw [hl] at hk; simpa using hk
            rw [List.drop_zero] at h2
            rw [hk'] at h2
            rw [List.isEmpty_iff] at h2
            exact hne h2
          | succ j' =>
            exact ⟨j', by simpa using h1, by simpa using h2⟩
      · rw [if_neg hskip]
        constructor
        · intro h
          exact ⟨0, by simpa using hpre0, by simpa using h⟩
        · rintro ⟨j, h1, h2⟩
          cases j with
          | zero => simpa using h2
          | succ j' =>
            rcases not_and_or.mp hskip with hl | ht
            · have hl' : last = false := by
                cases hlast : last
                · rfl
                · exact absurd hlast hl
              have hk' : ∀ (t : List Char) (j : Nat),
                  k (t.drop j) = true → k t = true := by
                rw [hl'] at hk; simpa using hk
              apply hk' ((c :: srest).drop (chrest.length + 1)) (j' + 1)
              rw [List.drop_drop] at h2 ⊢
              have hcomm : (j' + 1) + (chrest.length + 1) =
                  (chrest.length + 1) + (j' + 1) := Nat.add_comm _ _
              rw [hcomm] at h2
              exact h2
            · have ht' : (c :: srest).drop (chrest.length + 1) = [] :=
                not_not.mp ht
              rw [ht']
              have hlen : (c :: srest).length ≤ chrest.length + 1 :=
                List.drop_eq_nil_iff_le.mp ht'
              have h0 : ((c :: srest).drop (j' + 1)).drop (chrest.length + 1)
                  = [] := by
                rw [List.drop_drop]
                apply List.drop_eq_nil_of_le
                omega
              rw [h0] at h2
              exact h2
    · rw [if_neg hpre0, ih]
      constructor
      · rintro ⟨j, h1, h2⟩
        exact ⟨j + 1, by simpa using h1, by simpa using h2⟩
      · rintro ⟨j, h1, h2⟩
        cases j with
        | zero => exact absurd (by simpa using h1) hpre0
        | succ j' => exact ⟨j', by simpa using h1, by simpa using h2⟩


theorem starSearch_spec_last (k : List Char → Bool) (ch : Char)
    (chrest : List Char) (hk : ∀ t : List Char, k t = t.isEmpty)
    (s : List Char) :
    starSearch k true ch chrest s = true ↔
      ∃ j, (ch :: chrest).isPrefixOf (s.drop j) = true ∧
        k ((s.drop j).drop (chrest.length + 1)) = true :=
  starSearch_spec k true ch chrest (by simpa using hk) s

theorem starSearch_spec_mono (k : List Char → Bool) (ch : Char)
    (chrest : List Char)
    (hk : ∀ (t : List Char) (j : Nat), k (t.drop j) = true → k t = true)
    (s : List Char) :
    starSearch k false ch chrest s = true ↔
      ∃ j, (ch :: chrest).isPrefixOf (s.drop j) = true ∧
        k ((s.drop j).drop (chrest.length + 1)) = true :=
  starSearch_spec k false ch chrest (by simpa using hk) s

theorem starSearch_false (k : List Char → Bool) (last : Bool) (ch : Char)
    (chrest : List Char) (hk : ∀ t, k t = false) :
    ∀ s, starSearch k last ch chrest s = false := by
  intro s
  induction s with
  | nil => rfl
  | cons c srest ih =>
    have hunf : starSearch k last ch chrest (c :: srest) =
        (if (ch :: chrest).isPrefixOf (c :: srest) then
          if last ∧ (c :: srest).drop (chrest.length + 1) ≠ [] then
            starSearch k last ch chrest srest
          else k ((c :: srest).drop (chrest.length + 1))
        else starSearch k last ch chrest srest) := rfl
    rw [hunf]
    by_cases hpre : (ch :: chrest).isPrefixOf (c :: srest) = true
    · rw [if_pos hpre]
      by_cases hskip : last = true ∧ (c :: srest).drop (chrest.length + 1) ≠ []
      · rw [if_pos hskip]; exact ih
      · rw [if_neg hskip]; exact hk _
    · rw [if_neg hpre]; exact ih

theorem chunkScan_consumeStars_bound (a : Char) (arest : List Char)
    (chunk arg2 : List Char)
    (hcs : chunkScan (consumeStars (a :: arest)).2 = some (chunk, arg2)) :
    arg2.length < (a :: arest).length := by
  have h2 := chunkScan_length _ _ _ hcs
  rcases hstar : (consumeStars (a :: arest)).1 with _|_
  · have heq := consumeStars_false _ hstar
    rcases hd : (consumeStars (a :: arest)).2 with _ | ⟨c, r⟩
    · rw [hd] at heq; exact absurd heq (by simp)
    · have hne := consumeStars_no_star (a :: arest) c r hd
      rw [hd] at hcs h2
      have hchunk := chunkScan_head_ne_star c r hne _ _ hcs
      have hpos := List.length_pos.mpr hchunk
      rw [hd] at heq
      have hle : (c :: r).length = (a :: arest).length := by rw [heq]
      simp only [List.length_cons] at h2 hle ⊢
      omega
  · have h1 := consumeStars_length (a :: arest)
    have h1' := consumeStars_length_lt _ hstar
    omega

theorem chunkScan_consumeStars_nil_chunk (a : Char) (arest : List Char)
    (arg2 : List Char)
    (hcs : chunkScan (consumeStars (a :: arest)).2 = some ([], arg2)) :
    arg2 = [] := by
  rcases hd : (consumeStars (a :: arest)).2 with _ | ⟨c, r⟩
  · rw [hd] at hcs
    cases Option.some.inj hcs
    rfl
  · have hne := consumeStars_no_star (a :: arest) c r hd
    rw [hd] at hcs
    exact absurd rfl (chunkScan_head_ne_star c r hne _ _ hcs)

theorem semMatch_nil (name : List Char) : semMatch [] name = name.isEmpty := by
  simp [semMatch, lexGlob, tmatch]



theorem dropOneDrop (name : List Char) (j : Nat) :
    (name.drop 1).drop j = name.drop (j + 1) := by
  rw [List.drop_drop, Nat.add_comm]

theorem matchLoop_eq_semMatch :
    ∀ (N : Nat) (arg : List Char), arg.length ≤ N →
      ∀ name, matchLoop arg name = semMatch arg name := by
  intro N
  induction N with
  | zero =>
    intro arg harg name
    have h0 : arg = [] := by
      cases arg with
      | nil => rfl
      | cons x xs => simp at harg
    subst h0
    rw [matchLoop_nil, semMatch_nil]
  | succ N ihN =>
    intro arg harg name
    cases arg with
    | nil => rw [matchLoop_nil, semMatch_nil]
    | cons a arest =>
      rcases hcs : chunkScan (consumeStars (a :: arest)).2 with _ | ⟨chunk, arg2⟩
      · rw [matchLoop_cons_none a arest name hcs,
            semMatch_eq_consumeStars a arest name,
            chunkScan_none_lexGlob _ hcs]
      · have hlt := chunkScan_consumeStars_bound a arest chunk arg2 hcs
        have harg2 : arg2.length ≤ N := by
          simp only [List.length_cons] at hlt harg
          omega
        have hlex2 := chunkScan_some_lexGlob _ _ _ hcs
        have hshape := chunkScan_arg2_shape _ _ _ hcs
        rw [matchLoop_cons_some a arest name chunk arg2 hcs,
            semMatch_eq_consumeStars a arest name, hlex2]
        by_cases hA : (consumeStars (a :: arest)).1 = true ∧ chunk = []
        · have hb := hA.1
          have hc0 := hA.2
          rw [if_pos hA]
          subst hc0
          have harg2nil : arg2 = [] :=
            chunkScan_consumeStars_nil_chunk a arest arg2 hcs
          subst harg2nil
          rw [show lexGlob ([] : List Char) = some [] from rfl, optMapSome, hb]
          simp only [List.map_nil, List.nil_append, eq_self_iff_true, if_true]
          exact (tmatch_star_nil_ts name).symm
        · rw [if_neg hA]
          by_cases hB : chunk.isPrefixOf name = true ∧
              (name.length = chunk.length ∨ arg2 ≠ [])
          · rw [if_pos hB]
            rw [ihN arg2 harg2 (name.drop chunk.length)]
            unfold semMatch
            rcases hlex : lexGlob arg2 with _ | ts2
            · rfl
            · rw [optMapSome]
              rcases hb : (consumeStars (a :: arest)).1 with _|_
              · simp only [Bool.false_eq_true, if_false]
                rw [tmatch_lits, hB.1, Bool.true_and]
              · simp only [eq_self_iff_true, if_true]
                refine boolEqOfIff ?_
                rw [tmatch_star_iff]
                constructor
                · intro h
                  refine ⟨0, ?_⟩
                  rw [List.drop_zero, tmatch_lits, hB.1, Bool.true_and]
                  exact h
                · rintro ⟨j, hj⟩
                  rw [tmatch_lits, Bool.and_eq_true] at hj
                  rcases hj with ⟨hpre, ht⟩
                  rcases hshape with h0 | ⟨r, hr⟩
                  · subst h0
                    have hts2 : ts2 = [] := (Option.some.inj hlex).symm
                    subst hts2
                    rcases hB.2 with hlen | hne
                    · simp [tmatch, List.isEmpty_iff, List.drop_eq_nil_iff_le,
                        hlen]
                    · exact absurd rfl hne
                  · subst hr
                    rw [lexGlob_star] at hlex
                    rcases hlr : lexGlob r with _ | ts2'
                    · rw [hlr] at hlex; exact Option.noConfusion hlex
                    · rw [hlr, optMapSome] at hlex
                      cases Option.some.inj hlex
                      rw [List.drop_drop] at ht
                      have hidx : name.drop (j + chunk.length) =
                          (name.drop chunk.length).drop j := by
                        rw [List.drop_drop, Nat.add_comm]
                      rw [hidx] at ht
                      exact tmatch_star_drop _ _ _ ht
          · rw [if_neg hB]
            rcases hb : (consumeStars (a :: arest)).1 with _|_
            · simp only [Bool.false_eq_true, if_false]
              rcases hlex : lexGlob arg2 with _ | ts2
              · rfl
              · rw [optMapSome]
                simp only [Bool.false_eq_true, if_false]
                rw [tmatch_lits]
                by_cases hpre : chunk.isPrefixOf name = true
                · have hor : ¬(name.length = chunk.length ∨ arg2 ≠ []) :=
                    fun hor => hB ⟨hpre, hor⟩
                  push_neg at hor
                  rcases hor with ⟨hlen, h0⟩
                  subst h0
                  have hts2 : ts2 = [] := (Option.some.inj hlex).symm
                  subst hts2
                  rw [hpre, Bool.true_and]
                  have hple : chunk.length ≤ name.length :=
                    (List.isPrefixOf_iff_prefix.mp hpre).length_le
                  have hne : name.drop chunk.length ≠ [] := by
                    rw [Ne, List.drop_eq_nil_iff_le]
                    omega
                  symm
                  cases hempty : (name.drop chunk.length).isEmpty with
                  | false => simp [tmatch, hempty]
                  | true => exact absurd (List.isEmpty_iff.mp hempty) hne
                · have hpf : chunk.isPrefixOf name = false := by
                    cases h : chunk.isPrefixOf name
                    · rfl
                    · exact absurd h hpre
                  rw [hpf, Bool.false_and]
            · simp only [eq_self_iff_true, if_true]
              have hcne : chunk ≠ [] := fun h0 => hA ⟨hb, h0⟩
              rcases hchv : chunk with _ | ⟨ch, chrest⟩
              · exact absurd hchv hcne
              · subst hchv
                change starSearch (matchLoop arg2)
                  (decide (arg2 = [])) ch chrest (name.drop 1) =
                  (match Option.map
                      (fun ts => (ch :: chrest).map GlobTok.lit ++ ts)
                      (lexGlob arg2) with
                   | none => false
                   | some ts => tmatch (GlobTok.star :: ts) name)
                rcases hlex : lexGlob arg2 with _ | ts2
                · have hkf : ∀ t, matchLoop arg2 t = false := by
                    intro t
                    rw [ihN arg2 harg2 t]
                    unfold semMatch
                    rw [hlex]
                  rw [starSearch_false _ _ ch chrest hkf (name.drop 1)]
                  rfl
                · rw [optMapSome]
                  refine boolEqOfIff ?_
                  have hrhs : (match some (GlobTok.star ::
                        ((ch :: chrest).map GlobTok.lit ++ ts2)) with
                      | none => false
                      | some ts => tmatch ts name) =
                      tmatch (GlobTok.star ::
                        ((ch :: chrest).map GlobTok.lit ++ ts2)) name := rfl
                  rcases hshape with h0 | ⟨r, hr⟩
                  · subst h0
                    have hts2 : ts2 = [] := (Option.some.inj hlex).symm
                    subst hts2
                    rw [show (decide (([] : List Char) = [])) = true from rfl]
                    rw [starSearch_spec_last (matchLoop []) ch chrest
                      matchLoop_nil (name.drop 1)]
                    rw [show (match some (GlobTok.star ::
                        ((ch :: chrest).map GlobTok.lit ++ [])) with
                      | none => false
                      | some ts => tmatch ts name) =
                      tmatch (GlobTok.star ::
                        ((ch :: chrest).map GlobTok.lit ++ [])) name from rfl]
                    rw [tmatch_star_iff]
                    constructor
                    · rintro ⟨j, h1, h2⟩
                      refine ⟨j + 1, ?_⟩
                      rw [tmatch_lits, Bool.and_eq_true]
                      rw [dropOneDrop] at h1 h2
                      refine ⟨h1, ?_⟩
                      rw [matchLoop_nil] at h2
                      simp only [tmatch, List.length_cons]
                      exact h2
                    · rintro ⟨i, hi⟩
                      rw [tmatch_lits, Bool.and_eq_true] at hi
                      rcases hi with ⟨hpre, ht⟩
                      simp only [tmatch, List.length_cons] at ht
                      cases i with
                      | zero =>
                        exfalso
                        rw [List.drop_zero] at hpre ht
                        have hple : (ch :: chrest).length ≤ name.length :=
                          (List.isPrefixOf_iff_prefix.mp hpre).length_le
                        have hlen : name.length ≤ chrest.length + 1 :=
                          List.drop_eq_nil_iff_le.mp (List.isEmpty_iff.mp ht)
                        simp only [List.length_cons] at hple
                        have hlen2 : name.length = (ch :: chrest).length := by
                          simp only [List.length_cons]
                          omega
                        exact hB ⟨hpre, Or.inl hlen2⟩
                      | succ j =>
                        refine ⟨j, ?_, ?_⟩
                        · rw [dropOneDrop]; exact hpre
                        · rw [dropOneDrop, matchLoop_nil]
                          exact ht
                  · subst hr
                    rw [show (decide (('*' :: r : List Char) = [])) = false
                      from rfl]
                    rw [lexGlob_star] at hlex
                    rcases hlr : lexGlob r with _ | ts2'
                    · rw [hlr] at hlex; exact Option.noConfusion hlex
                    · rw [hlr, optMapSome] at hlex
                      cases Option.some.inj hlex
                      have hk : ∀ (t : List Char) (j : Nat),
                          matchLoop ('*' :: r) (t.drop j) = true →
                            matchLoop ('*' :: r) t = true := by
                        intro t j h
                        rw [ihN _ harg2] at h ⊢
                        unfold semMatch at h ⊢
                        rw [lexGlob_star, hlr, optMapSome] at h ⊢
                        exact tmatch_star_drop _ _ _ h
                      rw [starSearch_spec_mono (matchLoop ('*' :: r))
                        ch chrest hk (name.drop 1)]
                      rw [show (match some (GlobTok.star ::
                          ((ch :: chrest).map GlobTok.lit ++
                            (GlobTok.star :: ts2'))) with
                        | none => false
                        | some ts => tmatch ts name) =
                        tmatch (GlobTok.star ::
                          ((ch :: chrest).map GlobTok.lit ++
                            (GlobTok.star :: ts2'))) name from rfl]
                      rw [tmatch_star_iff]
                      constructor
                      · rintro ⟨j, h1, h2⟩
                        refine ⟨j + 1, ?_⟩
                        rw [tmatch_lits, Bool.and_eq_true]
                        rw [dropOneDrop] at h1 h2
                        refine ⟨h1, ?_⟩
                        rw [ihN _ harg2] at h2
                        unfold semMatch at h2
                        rw [lexGlob_star, hlr, optMapSome] at h2
                        simp only [List.length_cons]
                        exact h2
                      · rintro ⟨i, hi⟩
                        rw [tmatch_lits, Bool.and_eq_true] at hi
                        rcases hi with ⟨hpre, ht⟩
                        simp only [List.length_cons] at ht
                        cases i with
                        | zero =>
                          exfalso
                          rw [List.drop_zero] at hpre
                          exact hB ⟨hpre, Or.inr (by simp)⟩
                        | succ j =>
                          refine ⟨j, ?_, ?_⟩
                          · rw [dropOneDrop]; exact hpre
                          · rw [dropOneDrop]
                            rw [ihN _ harg2]
                            unfold semMatch
                            rw [lexGlob_star, hlr, optMapSome]
                            exact ht


/-- C9: `ArgFileName.Match` decides exactly the glob language of the
pattern: it returns `true` iff the pattern lexes — `\` escapes the next
byte to a literal, and a pattern with a trailing `\` is a pattern error
on which `Match` returns `false` — and the filename is in the language
in which `*` matches any run (including the empty run) of any
characters and every other byte matches itself; multiple stars,
consecutive stars and empty star runs are all covered by the language
equivalence. -/
theorem Match_glob_correct (pat name : List Char) :
    Match pat name = true ↔
      ∃ ts, lexGlob pat = some ts ∧ GlobMatch ts name := by
  unfold Match
  by_cases hp : pat = ['*']
  · rw [if_pos hp]
    subst hp
    constructor
    · intro _
      refine ⟨[GlobTok.star], ?_, ?_⟩
      · rw [lexGlob_star]
        rfl
      · exact globMatch_of_tmatch _ _ (tmatch_star_nil_ts name)
    · intro _
      rfl
  · rw [if_neg hp]
    rw [matchLoop_eq_semMatch pat.length pat le_rfl name]
    unfold semMatch
    rcases hl : lexGlob pat with _ | ts
    · constructor
      · intro h
        exact Bool.noConfusion h
      · rintro ⟨ts', hts, _⟩
        exact Option.noConfusion hts
    · constructor
      · intro h
        exact ⟨ts, rfl, globMatch_of_tmatch _ _ h⟩
      · rintro ⟨ts', hts, hg⟩
        cases Option.some.inj hts
        exact tmatch_of_globMatch _ _ hg

/-! ## C6: the in-planner's directory recursion

Embeds the newer revision of `syncInReadDir` (the one the spec
describes): the scan `!s.Ignore && len(s.Children) == 1` followed by
the cached-source directory check decides which filenames are
recursed into, once per distinct name, in `sort.Strings` order. -/

structure InSelection where
  file : String
  ignore : Bool
  children : List Nat
  properties : List String
  values : List (String × Nat)
  deriving Repr, DecidableEq

structure InAction where
  depth : Nat
  dir : List String
  selection : List InSelection
  deriving Repr, DecidableEq

/-- A directory-inducing selection: not ignored, exactly one child
index, and the `SourceCache` entry at `jdir/file` exists and is a
directory (the cache is modelled by what the scan reads from it: the
`IsDir` flag per path). -/
def isDirSel (cache : List (String × Bool)) (jdir : String)
    (s : InSelection) : Prop :=
  s.ignore = false ∧ s.children.length = 1 ∧
    lookupA cache (join2 jdir s.file) = some true

instance (cache : List (String × Bool)) (jdir : String) (s : InSelection) :
    Decidable (isDirSel cache jdir s) := by
  unfold isDirSel
  infer_instance

/-- One step of the `children[s.File] = true` scan of `syncInReadDir`;
the Go map is an insertion-ordered association list. -/
def syncInScanStep (cache : List (String × Bool)) (jdir : String)
    (m : List (String × Bool)) (s : InSelection) : List (String × Bool) :=
  if s.ignore = false ∧ s.children.length = 1 then
    match lookupA cache (join2 jdir s.file) with
    | some isDir => if isDir then updateA m s.file true else m
    | none => m
  else m

/-- The keys of the `children` map after the whole scan, in insertion
order; `calls` holds, per rule pair in rule order, the pair's depth and
the selections `defs.CallIn` returned for it. -/
def syncInDirNames (cache : List (String × Bool)) (jdir : String)
    (calls : List (Nat × List InSelection)) : List String :=
  (calls.foldl (fun m c => c.2.foldl (syncInScanStep cache jdir) m) []).map
    Prod.fst

/-- The per-level action list of `syncInReadDir`: one action per
selection, in rule order. -/
def syncInLevelActions (subdir : List String)
    (calls : List (Nat × List InSelection)) : List InAction :=
  calls.flatMap (fun c => c.2.map (fun s => ⟨c.1, subdir, [s]⟩))

/-- One level of `syncInReadDir`: the actions it emits and the sorted
subdirectory names it recurses into, with `π` the iteration order in
which the Go map yields the keys of `children` before `sort.Strings`
runs. -/
def syncInReadDirStep (π : List String → List String)
    (cache : List (String × Bool)) (subdir : List String)
    (calls : List (Nat × List InSelection)) :
    List InAction × List String :=
  (syncInLevelActions subdir calls,
   insSort strLt (π (syncInDirNames cache (joinPath subdir) calls)))

theorem updateA_keys_mem {κ β : Type} [DecidableEq κ] (m : List (κ × β))
    (k : κ) (v : β) (x : κ) :
    (x ∈ (updateA m k v).map Prod.fst ↔ x ∈ m.map Prod.fst ∨ x = k) := by
  induction m with
  | nil => simp [updateA]
  | cons p m ih =>
    obtain ⟨k', v'⟩ := p
    simp only [updateA]
    by_cases h : k' = k
    · subst h
      simp only [eq_self_iff_true, if_true, List.map_cons, List.mem_cons]
      tauto
    · rw [if_neg h]
      simp only [List.map_cons, List.mem_cons, ih]
      tauto

theorem updateA_keys_nodup {κ β : Type} [DecidableEq κ] (m : List (κ × β))
    (k : κ) (v : β) (h : (m.map Prod.fst).Nodup) :
    ((updateA m k v).map Prod.fst).Nodup := by
  induction m with
  | nil => simp [updateA]
  | cons p m ih =>
    obtain ⟨k', v'⟩ := p
    simp only [List.map_cons, List.nodup_cons] at h
    rcases h with ⟨hk', hm⟩
    simp only [updateA]
    by_cases hkk : k' = k
    · subst hkk
      simp only [eq_self_iff_true, if_true, List.map_cons, List.nodup_cons]
      exact ⟨hk', hm⟩
    · rw [if_neg hkk]
      simp only [List.map_cons, List.nodup_cons]
      refine ⟨?_, ih hm⟩
      intro hmem
      rcases (updateA_keys_mem m k v k').mp hmem with hmem | hmem
      · exact hk' hmem
      · exact hkk hmem

theorem syncInScanStep_keys (cache : List (String × Bool)) (jdir : String)
    (m : List (String × Bool)) (s : InSelection) (x : String) :
    (x ∈ (syncInScanStep cache jdir m s).map Prod.fst ↔
      x ∈ m.map Prod.fst ∨ (s.file = x ∧ isDirSel cache jdir s)) := by
  unfold syncInScanStep isDirSel
  by_cases hc : s.ignore = false ∧ s.children.length = 1
  · rw [if_pos hc]
    rcases hl : lookupA cache (join2 jdir s.file) with _ | isDir
    · constructor
      · exact Or.inl
      · rintro (h | ⟨_, _, _, h⟩)
        · exact h
        · exact Option.noConfusion h
    · cases isDir with
      | false =>
        constructor
        · exact Or.inl
        · rintro (h | ⟨_, _, _, h⟩)
          · exact h
          · exact absurd (Option.some.inj h) (by simp)
      | true =>
        change x ∈ (updateA m s.file true).map Prod.fst ↔ _
        rw [updateA_keys_mem]
        constructor
        · rintro (h | h)
          · exact Or.inl h
          · exact Or.inr ⟨h.symm, hc.1, hc.2, rfl⟩
        · rintro (h | ⟨h, _⟩)
          · exact Or.inl h
          · exact Or.inr h.symm
  · rw [if_neg hc]
    constructor
    · exact Or.inl
    · rintro (h | ⟨_, h1, h2, _⟩)
      · exact h
      · exact absurd ⟨h1, h2⟩ hc

theorem syncInScanStep_nodup (cache : List (String × Bool)) (jdir : String)
    (m : List (String × Bool)) (s : InSelection)
    (h : (m.map Prod.fst).Nodup) :
    ((syncInScanStep cache jdir m s).map Prod.fst).Nodup := by
  unfold syncInScanStep
  by_cases hc : s.ignore = false ∧ s.children.length = 1
  · rw [if_pos hc]
    rcases hl : lookupA cache (join2 jdir s.file) with _ | isDir
    · exact h
    · cases isDir with
      | false => exact h
      | true =>
        change ((updateA m s.file true).map Prod.fst).Nodup
        exact updateA_keys_nodup m s.file true h
  · rw [if_neg hc]
    exact h

theorem scanFold_keys (cache : List (String × Bool)) (jdir : String)
    (l : List InSelection) :
    ∀ (m : List (String × Bool)) (x : String),
      (x ∈ ((l.foldl (syncInScanStep cache jdir) m).map Prod.fst) ↔
        x ∈ m.map Prod.fst ∨ ∃ s ∈ l, s.file = x ∧ isDirSel cache jdir s) := by
  induction l with
  | nil => intro m x; simp
  | cons s l ih =>
    intro m x
    rw [List.foldl_cons, ih, syncInScanStep_keys]
    simp only [List.mem_cons]
    constructor
    · rintro ((h | h) | ⟨s', hs', h⟩)
      · exact Or.inl h
      · exact Or.inr ⟨s, Or.inl rfl, h⟩
      · exact Or.inr ⟨s', Or.inr hs', h⟩
    · rintro (h | ⟨s', hs' | hs', h⟩)
      · exact Or.inl (Or.inl h)
      · subst hs'
        exact Or.inl (Or.inr h)
      · exact Or.inr ⟨s', hs', h⟩

theorem scanFold_nodup (cache : List (String × Bool)) (jdir : String)
    (l : List InSelection) :
    ∀ (m : List (String × Bool)), (m.map Prod.fst).Nodup →
      ((l.foldl (syncInScanStep cache jdir) m).map Prod.fst).Nodup := by
  induction l with
  | nil => intro m h; exact h
  | cons s l ih =>
    intro m h
    rw [List.foldl_cons]
    exact ih _ (syncInScanStep_nodup cache jdir m s h)

theorem callsFold_keys (cache : List (String × Bool)) (jdir : String)
    (calls : List (Nat × List InSelection)) :
    ∀ (m : List (String × Bool)) (x : String),
      (x ∈ ((calls.foldl
          (fun m c => c.2.foldl (syncInScanStep cache jdir) m) m).map
            Prod.fst) ↔
        x ∈ m.map Prod.fst ∨
          ∃ c ∈ calls, ∃ s ∈ c.2, s.file = x ∧ isDirSel cache jdir s) := by
  induction calls with
  | nil => intro m x; simp
  | cons c calls ih =>
    intro m x
    rw [List.foldl_cons, ih, scanFold_keys]
    simp only [List.mem_cons]
    constructor
    · rintro ((h | ⟨s, hs, h⟩) | ⟨c', hc', h⟩)
      · exact Or.inl h
      · exact Or.inr ⟨c, Or.inl rfl, s, hs, h⟩
      · exact Or.inr ⟨c', Or.inr hc', h⟩
    · rintro (h | ⟨c', hc' | hc', h⟩)
      · exact Or.inl (Or.inl h)
      · subst hc'
        exact Or.inl (Or.inr h)
      · exact Or.inr ⟨c', hc', h⟩

theorem syncInDirNames_mem (cache : List (String × Bool)) (jdir : String)
    (calls : List (Nat × List InSelection)) (x : String) :
    (x ∈ syncInDirNames cache jdir calls ↔
      ∃ c ∈ calls, ∃ s ∈ c.2, s.file = x ∧ isDirSel cache jdir s) := by
  unfold syncInDirNames
  rw [callsFold_keys]
  simp

theorem syncInDirNames_nodup (cache : List (String × Bool)) (jdir : String)
    (calls : List (Nat × List InSelection)) :
    (syncInDirNames cache jdir calls).Nodup := by
  unfold syncInDirNames
  suffices h : ∀ (m : List (String × Bool)), (m.map Prod.fst).Nodup →
      ((calls.foldl (fun m c => c.2.foldl (syncInScanStep cache jdir) m)
        m).map Prod.fst).Nodup by
    exact h [] (by simp)
  induction calls with
  | nil => intro m hm; exact hm
  | cons c calls ih =>
    intro m hm
    rw [List.foldl_cons]
    exact ih _ (scanFold_nodup cache jdir c.2 m hm)


theorem charListLt_asymm : ∀ a b, charListLt a b = true → charListLt b a = false := by
  intro a
  induction a with
  | nil =>
    intro b h
    cases b with
    | nil => exact absurd h (by simp [charListLt])
    | cons y ys => rfl
  | cons x xs ih =>
    intro b h
    cases b with
    | nil => exact absurd h (by simp [charListLt])
    | cons y ys =>
      simp only [charListLt] at h ⊢
      by_cases hxy : x.toNat < y.toNat
      · rw [if_neg (by omega), if_pos hxy]
      · rw [if_neg hxy] at h
        by_cases hyx : y.toNat < x.toNat
        · rw [if_pos hyx] at h
          exact absurd h (by simp)
        · rw [if_neg hyx] at h
          rw [if_neg hyx, if_neg hxy]
          exact ih ys h

theorem charListLt_false_trans : ∀ a b c, charListLt a b = false →
    charListLt b c = false → charListLt a c = false := by
  intro a
  induction a with
  | nil =>
    intro b c hab hbc
    cases b with
    | nil =>
      cases c with
      | nil => rfl
      | cons z zs => exact absurd hbc (by simp [charListLt])
    | cons y ys => exact absurd hab (by simp [charListLt])
  | cons x xs ih =>
    intro b c hab hbc
    cases b with
    | nil =>
      cases c with
      | nil => rfl
      | cons z zs => exact absurd hbc (by simp [charListLt])
    | cons y ys =>
      cases c with
      | nil => rfl
      | cons z zs =>
        simp only [charListLt] at hab hbc ⊢
        by_cases hxy : x.toNat < y.toNat
        · rw [if_pos hxy] at hab
          exact absurd hab (by simp)
        · rw [if_neg hxy] at hab
          by_cases hyz : y.toNat < z.toNat
          · rw [if_pos hyz] at hbc
            exact absurd hbc (by simp)
          · rw [if_neg hyz] at hbc
            by_cases hxz : x.toNat < z.toNat
            · exact absurd hxz (by
                by_cases hyx : y.toNat < x.toNat
                · omega
                · by_cases hzy : z.toNat < y.toNat
                  · omega
                  · omega)
            · rw [if_neg hxz]
              by_cases hzx : z.toNat < x.toNat
              · rw [if_pos hzx]
              · rw [if_neg hzx]
                have hyx : ¬y.toNat < x.toNat := by
                  intro hyx
                  rw [if_pos hyx] at hab
                  by_cases hzy : z.toNat < y.toNat
                  · omega
                  · omega
                rw [if_neg hyx] at hab
                have hzy : ¬z.toNat < y.toNat := by omega
                rw [if_neg hzy] at hbc
                exact ih ys zs hab hbc

theorem charListLt_total_ne : ∀ a b, a ≠ b →
    charListLt a b = true ∨ charListLt b a = true := by
  intro a
  induction a with
  | nil =>
    intro b hne
    cases b with
    | nil => exact absurd rfl hne
    | cons y ys => exact Or.inl (by simp [charListLt])
  | cons x xs ih =>
    intro b hne
    cases b with
    | nil => exact Or.inr (by simp [charListLt])
    | cons y ys =>
      simp only [charListLt]
      by_cases hxy : x.toNat < y.toNat
      · exact Or.inl (by rw [if_pos hxy])
      · by_cases hyx : y.toNat < x.toNat
        · exact Or.inr (by rw [if_pos hyx])
        · have hx : x = y := by
            have : x.toNat = y.toNat := by omega
            exact Char.eq_of_val_eq (UInt32.toNat.inj this)
          subst hx
          have hys : xs ≠ ys := by
            intro h0
            exact hne (by rw [h0])
          rcases ih ys hys with h | h
          · exact Or.inl (by rw [if_neg hxy, if_neg hxy]; exact h)
          · exact Or.inr (by rw [if_neg hxy, if_neg hxy]; exact h)

theorem strLt_asymm (a b : String) (h : strLt a b = true) :
    strLt b a = false :=
  charListLt_asymm a.data b.data h

theorem strLt_false_trans (a b c : String) (hab : strLt a b = false)
    (hbc : strLt b c = false) : strLt a c = false :=
  charListLt_false_trans a.data b.data c.data hab hbc

theorem strLt_total_ne (a b : String) (h : a ≠ b) :
    strLt a b = true ∨ strLt b a = true :=
  charListLt_total_ne a.data b.data (fun hd => h (String.ext hd))

theorem sortedStrict_of_nodup (l : List String) (hnd : l.Nodup)
    (hp : l.Pairwise (fun a b => strLt b a = false)) :
    l.Pairwise (fun a b => strLt a b = true) := by
  refine (hnd.and hp).imp ?_
  rintro a b ⟨hne, hfalse⟩
  rcases strLt_total_ne a b hne with h | h
  · exact h
  · rw [h] at hfalse
    exact Bool.noConfusion hfalse

/-- C6: in one level of the in-planner, a filename is recursed into
exactly when some rule call produced a selection for it that is not an
ignore selection, has exactly one child index, and whose cached source
at `subdir/file` is a directory; the recursion list is duplicate-free
and in strictly ascending lexicographic filename order, for every
iteration order `π` of the internal `children` map. -/
theorem syncInReadDir_dir_recursion
    (π : List String → List String) (cache : List (String × Bool))
    (subdir : List String) (calls : List (Nat × List InSelection))
    (hπ : (π (syncInDirNames cache (joinPath subdir) calls)).Perm
      (syncInDirNames cache (joinPath subdir) calls)) :
    (∀ name, name ∈ (syncInReadDirStep π cache subdir calls).2 ↔
      ∃ c ∈ calls, ∃ s ∈ c.2, s.file = name ∧ s.ignore = false ∧
        s.children.length = 1 ∧
        lookupA cache (join2 (joinPath subdir) s.file) = some true) ∧
    (syncInReadDirStep π cache subdir calls).2.Pairwise
      (fun a b => strLt a b = true) ∧
    (syncInReadDirStep π cache subdir calls).2.Nodup := by
  have hperm : (syncInReadDirStep π cache subdir calls).2.Perm
      (syncInDirNames cache (joinPath subdir) calls) := by
    unfold syncInReadDirStep
    exact (insSort_perm strLt _).trans hπ
  have hnd : (syncInReadDirStep π cache subdir calls).2.Nodup :=
    hperm.nodup_iff.mpr (syncInDirNames_nodup _ _ _)
  have hpf : (syncInReadDirStep π cache subdir calls).2.Pairwise
      (fun a b => strLt b a = false) := by
    unfold syncInReadDirStep
    exact insSort_pairwise strLt strLt_asymm strLt_false_trans _
  refine ⟨?_, sortedStrict_of_nodup _ hnd hpf, hnd⟩
  intro name
  rw [hperm.mem_iff, syncInDirNames_mem]
  unfold isDirSel
  constructor
  · rintro ⟨c, hc, s, hs, h1, h2, h3, h4⟩
    exact ⟨c, hc, s, hs, h1, h2, h3, h4⟩
  · rintro ⟨c, hc, s, hs, h1, h2, h3, h4⟩
    exact ⟨c, hc, s, hs, h1, h2, h3, h4⟩

def c6Cache : List (String × Bool) :=
  [("d/b", true), ("d/a", true), ("d/c", false)]

def c6Calls : List (Nat × List InSelection) :=
  [(1, [⟨"b", false, [0], [], []⟩, ⟨"a", true, [0], [], []⟩,
        ⟨"c", false, [0], [], []⟩, ⟨"x", false, [0, 1], [], []⟩]),
   (2, [⟨"a", false, [2], [], []⟩, ⟨"b", false, [1], [], []⟩])]

/-- C6 witness: the theorem applied at a concrete cache and call list
(`π` the identity), together with the concrete recursion list it
determines. -/
theorem syncInReadDir_dir_recursion_witness :
    ((id (syncInDirNames c6Cache (joinPath ["d"]) c6Calls)).Perm
      (syncInDirNames c6Cache (joinPath ["d"]) c6Calls)) ∧
    ((∀ name, name ∈ (syncInReadDirStep id c6Cache ["d"] c6Calls).2 ↔
      ∃ c ∈ c6Calls, ∃ s ∈ c.2, s.file = name ∧ s.ignore = false ∧
        s.children.length = 1 ∧
        lookupA c6Cache (join2 (joinPath ["d"]) s.file) = some true) ∧
    (syncInReadDirStep id c6Cache ["d"] c6Calls).2.Pairwise
      (fun a b => strLt a b = true) ∧
    (syncInReadDirStep id c6Cache ["d"] c6Calls).2.Nodup) ∧
    (syncInReadDirStep id c6Cache ["d"] c6Calls).2 = ["a", "b"] :=
  ⟨List.Perm.refl _,
   syncInReadDir_dir_recursion id c6Cache ["d"] c6Calls (List.Perm.refl _),
   by decide⟩


/-! ## C8: the `SourceCache` decode discipline of `FuncDef.CallIn`

Embeds the cache-population loop of the newer `CallIn` revision: per
selected file name, a cache hit reuses the entry; on a miss the source
is opened and — for a file of supported format — decoded, a successful
decode being stored in the cache while any failure is recorded as a
per-call error; a call that accumulated errors aborts the remaining
calls of the invocation (`syncInReadDir` returns the error). `events`
records every invocation of the Format decoder. -/

inductive FsEntry where
  | openErr
  | dir (auxOk : Bool)
  | fileNoFormat
  | file (decodeOk : Bool)
  deriving Repr, DecidableEq

structure CallSt where
  cache : List (String × Bool)
  events : List (String × Bool)
  errs : Bool
  deriving Repr, DecidableEq

/-- One iteration of the `for _, name := range sfile` loop of `CallIn`. -/
def processName (fs : String → FsEntry) (subdir : String) (st : CallSt)
    (name : String) : CallSt :=
  match lookupA st.cache (join2 subdir name) with
  | some _ => st
  | none =>
    match fs (join2 subdir name) with
    | .openErr => { st with errs := true }
    | .dir auxOk =>
      if auxOk then
        { st with cache := updateA st.cache (join2 subdir name) true }
      else st
    | .fileNoFormat => { st with errs := true }
    | .file ok =>
      if ok then
        { st with cache := updateA st.cache (join2 subdir name) false,
                  events := st.events ++ [(join2 subdir name, true)] }
      else
        { st with events := st.events ++ [(join2 subdir name, false)],
                  errs := true }

/-- One `CallIn` invocation: the name loop over the pattern's file
list, starting with a fresh error list. -/
def callIn (fs : String → FsEntry) (subdir : String) (names : List String)
    (cache events : List (String × Bool)) : CallSt :=
  names.foldl (processName fs subdir) ⟨cache, events, false⟩

/-- The sequence of `CallIn` invocations of one sync-in read, threading
the `SourceCache`; a call that returns an error aborts the rest. -/
def runCalls (fs : String → FsEntry) :
    List (String × List String) → List (String × Bool) →
      List (String × Bool) → CallSt
  | [], cache, events => ⟨cache, events, false⟩
  | c :: rest, cache, events =>
    if (callIn fs c.1 c.2 cache events).errs then
      callIn fs c.1 c.2 cache events
    else
      runCalls fs rest (callIn fs c.1 c.2 cache events).cache
        (callIn fs c.1 c.2 cache events).events

theorem lookupA_isSome_of_mem_keys {κ β : Type} [DecidableEq κ]
    (m : List (κ × β)) (k : κ) (h : k ∈ m.map Prod.fst) :
    ∃ v, lookupA m k = some v := by
  induction m with
  | nil => simp at h
  | cons p m ih =>
    obtain ⟨k', v'⟩ := p
    simp only [List.map_cons, List.mem_cons] at h
    simp only [lookupA]
    by_cases hk : k' = k
    · rw [if_pos hk]
      exact ⟨v', rfl⟩
    · rw [if_neg hk]
      rcases h with h | h
      · exact absurd h.symm hk
      · exact ih h

theorem processName_step (fs : String → FsEntry) (subdir : String)
    (st : CallSt) (name : String) (R : List String)
    (hnod : (st.events.map Prod.fst).Nodup)
    (hb : ∀ p ∈ st.events.map Prod.fst,
      p ∈ st.cache.map Prod.fst ∨ p ∉ join2 subdir name :: R)
    (hc : ∀ p ∈ st.events.map Prod.fst,
      p ∈ st.cache.map Prod.fst ∨ st.errs = true)
    (hhd : join2 subdir name ∉ R) :
    (((processName fs subdir st name).events.map Prod.fst).Nodup ∧
     (∀ p ∈ (processName fs subdir st name).events.map Prod.fst,
       p ∈ (processName fs subdir st name).cache.map Prod.fst ∨ p ∉ R) ∧
     (∀ p ∈ (processName fs subdir st name).events.map Prod.fst,
       p ∈ (processName fs subdir st name).cache.map Prod.fst ∨
         (processName fs subdir st name).errs = true)) := by
  have hbr : ∀ p ∈ st.events.map Prod.fst,
      p ∈ st.cache.map Prod.fst ∨ p ∉ R := by
    intro p hp
    rcases hb p hp with h | h
    · exact Or.inl h
    · exact Or.inr (fun hr => h (List.mem_cons_of_mem _ hr))
  unfold processName
  rcases hlk : lookupA st.cache (join2 subdir name) with _ | v
  · rcases hfs : fs (join2 subdir name) with _ | auxOk | _ | ok
    · exact ⟨hnod, hbr, fun p hp => Or.inr rfl⟩
    · cases auxOk with
      | false =>
        exact ⟨hnod, hbr, hc⟩
      | true =>
        refine ⟨hnod, ?_, ?_⟩
        · intro p hp
          rcases hbr p hp with h | h
          · exact Or.inl ((updateA_keys_mem _ _ _ _).mpr (Or.inl h))
          · exact Or.inr h
        · intro p hp
          rcases hc p hp with h | h
          · exact Or.inl ((updateA_keys_mem _ _ _ _).mpr (Or.inl h))
          · exact Or.inr h
    · exact ⟨hnod, hbr, fun p hp => Or.inr rfl⟩
    · have hnew : join2 subdir name ∉ st.events.map Prod.fst := by
        intro hmem
        rcases hb _ hmem with h | h
        · obtain ⟨v, hv⟩ := lookupA_isSome_of_mem_keys st.cache _ h
          exact Option.noConfusion (hlk.symm.trans hv)
        · exact h (List.mem_cons_self _ _)
      cases ok with
      | true =>
        simp only [if_true]
        refine ⟨?_, ?_, ?_⟩
        · simp only [List.map_append, List.map_cons, List.map_nil]
          rw [List.nodup_append]
          exact ⟨hnod, List.nodup_singleton _,
            fun p hp hq => hnew (by
              simp only [List.mem_singleton] at hq
              rw [hq] at hp
              exact hp)⟩
        · intro p hp
          simp only [List.map_append, List.map_cons, List.map_nil,
            List.mem_append, List.mem_singleton] at hp
          rcases hp with hp | hp
          · rcases hbr p hp with h | h
            · exact Or.inl ((updateA_keys_mem _ _ _ _).mpr (Or.inl h))
            · exact Or.inr h
          · subst hp
            exact Or.inl ((updateA_keys_mem _ _ _ _).mpr (Or.inr rfl))
        · intro p hp
          simp only [List.map_append, List.map_cons, List.map_nil,
            List.mem_append, List.mem_singleton] at hp
          rcases hp with hp | hp
          · rcases hc p hp with h | h
            · exact Or.inl ((updateA_keys_mem _ _ _ _).mpr (Or.inl h))
            · exact Or.inr h
          · subst hp
            exact Or.inl ((updateA_keys_mem _ _ _ _).mpr (Or.inr rfl))
      | false =>
        simp only [Bool.false_eq_true, if_false]
        refine ⟨?_, ?_, fun p hp => Or.inr trivial⟩
        · simp only [List.map_append, List.map_cons, List.map_nil]
          rw [List.nodup_append]
          exact ⟨hnod, List.nodup_singleton _,
            fun p hp hq => hnew (by
              simp only [List.mem_singleton] at hq
              rw [hq] at hp
              exact hp)⟩
        · intro p hp
          simp only [List.map_append, List.map_cons, List.map_nil,
            List.mem_append, List.mem_singleton] at hp
          rcases hp with hp | hp
          · rcases hbr p hp with h | h
            · exact Or.inl h
            · exact Or.inr h
          · subst hp
            exact Or.inr hhd
  · exact ⟨hnod, hbr, hc⟩


theorem callIn_fold_inv (fs : String → FsEntry) (subdir : String) :
    ∀ (names : List String) (st : CallSt),
      (st.events.map Prod.fst).Nodup →
      (∀ p ∈ st.events.map Prod.fst,
        p ∈ st.cache.map Prod.fst ∨ p ∉ names.map (join2 subdir)) →
      (∀ p ∈ st.events.map Prod.fst,
        p ∈ st.cache.map Prod.fst ∨ st.errs = true) →
      (names.map (join2 subdir)).Nodup →
      (((names.foldl (processName fs subdir) st).events.map Prod.fst).Nodup ∧
       ∀ p ∈ (names.foldl (processName fs subdir) st).events.map Prod.fst,
         p ∈ (names.foldl (processName fs subdir) st).cache.map Prod.fst ∨
           (names.foldl (processName fs subdir) st).errs = true) := by
  intro names
  induction names with
  | nil =>
    intro st h1 _ h3 _
    exact ⟨h1, h3⟩
  | cons name rest ih =>
    intro st h1 h2 h3 hnd
    simp only [List.map_cons, List.nodup_cons] at hnd
    rw [List.foldl_cons]
    have hstep := processName_step fs subdir st name (rest.map (join2 subdir))
      h1 (by simp only [List.map_cons] at h2; exact h2) h3 hnd.1
    exact ih _ hstep.1 hstep.2.1 hstep.2.2 hnd.2

theorem runCalls_nodup (fs : String → FsEntry) :
    ∀ (calls : List (String × List String))
      (cache events : List (String × Bool)),
      (events.map Prod.fst).Nodup →
      (∀ p ∈ events.map Prod.fst, p ∈ cache.map Prod.fst) →
      (∀ c ∈ calls, (c.2.map (join2 c.1)).Nodup) →
      ((runCalls fs calls cache events).events.map Prod.fst).Nodup := by
  intro calls
  induction calls with
  | nil =>
    intro cache events h1 _ _
    exact h1
  | cons c rest ih =>
    intro cache events h1 h2 hnd
    unfold runCalls
    have hceq : callIn fs c.1 c.2 cache events =
        c.2.foldl (processName fs c.1) ⟨cache, events, false⟩ := rfl
    have hfold := callIn_fold_inv fs c.1 c.2 ⟨cache, events, false⟩ h1
      (fun p hp => Or.inl (h2 p hp)) (fun p hp => Or.inl (h2 p hp))
      (hnd c (List.mem_cons_self _ _))
    rw [← hceq] at hfold
    by_cases herr : (callIn fs c.1 c.2 cache events).errs = true
    · rw [if_pos herr]
      exact hfold.1
    · rw [if_neg herr]
      refine ih _ _ hfold.1 ?_ (fun c' hc' => hnd c' (List.mem_cons_of_mem _ hc'))
      intro p hp
      rcases hfold.2 p hp with h | h
      · exact h
      · exact absurd h herr

/-- C8: during one sync-in invocation — a sequence of `CallIn`
invocations threading one `SourceCache`, aborted at the first call that
reports errors — the Format decoder runs at most once per file path
(the decode-event paths are duplicate-free), provided each call's
pattern yields a duplicate-free path list (the default in-patterns read
a directory listing); and a path present in the cache is reused as-is:
its loop iteration leaves the state unchanged and decodes nothing. -/
theorem callIn_at_most_one_decode (fs : String → FsEntry)
    (calls : List (String × List String))
    (hnd : ∀ c ∈ calls, (c.2.map (join2 c.1)).Nodup) :
    (((runCalls fs calls [] []).events.map Prod.fst).Nodup) ∧
    (∀ (subdir name : String) (st : CallSt) (v : Bool),
      lookupA st.cache (join2 subdir name) = some v →
      processName fs subdir st name = st) := by
  constructor
  · exact runCalls_nodup fs calls [] [] (by simp) (by simp) hnd
  · intro subdir name st v hv
    unfold processName
    rw [hv]

def c8Fs : String → FsEntry := fun p =>
  if p = "d/a.json" then .file true
  else if p = "d/sub" then .dir true
  else .openErr

def c8Calls : List (String × List String) :=
  [("d", ["a.json", "sub"]), ("d", ["a.json"])]

/-- C8 witness: two calls both select `d/a.json`; the hypothesis holds
by computation, the decode-event list is duplicate-free, and in fact
the path is decoded exactly once even though both calls touch it. -/
theorem callIn_at_most_one_decode_witness :
    (∀ c ∈ c8Calls, (c.2.map (join2 c.1)).Nodup) ∧
    ((((runCalls c8Fs c8Calls [] []).events.map Prod.fst).Nodup) ∧
     (∀ (subdir name : String) (st : CallSt) (v : Bool),
       lookupA st.cache (join2 subdir name) = some v →
       processName c8Fs subdir st name = st)) ∧
    (runCalls c8Fs c8Calls [] []).events = [("d/a.json", true)] :=
  ⟨by decide, callIn_at_most_one_decode c8Fs c8Calls (by decide), by decide⟩


/-! ## C4: the rule parser's per-line error collection

Embeds the collecting revision of `ruleParser` (the one the spec
describes: per-line errors are accumulated with their line numbers and
parsing continues), over the newest default rule definitions' argument
signatures and the matching revision of the argument parsers. -/

namespace RuleParse

/-- `ruleParser.ident`: the longest ASCII-letter prefix — except that a
string consisting entirely of letters (including the empty string)
yields the empty identifier, because the source only returns `s[:i]`
upon meeting a non-letter. -/
def identGo (s : List Char) : List Char :=
  if s.all (fun c => ('a' ≤ c ∧ c ≤ 'z') ∨ ('A' ≤ c ∧ c ≤ 'Z')) then []
  else s.takeWhile (fun c => ('a' ≤ c ∧ c ≤ 'z') ∨ ('A' ≤ c ∧ c ≤ 'Z'))

/-- This revision's `ArgTypeString`: the same scan loop, no trimming,
total. -/
def ArgTypeString (s : List Char) : ArgRes :=
  match (argStringLoop s).2.2 with
  | some msg => ⟨none, (argStringLoop s).2.1, some msg⟩
  | none => ⟨some (.str (argStringLoop s).1), (argStringLoop s).2.1, none⟩

/-- This revision's `ArgTypeName`: a literal `*,` or `*)` prefix yields
`Any` with one rune consumed; otherwise the remaining text parses as an
`ArgString` literal, whose value the source type-asserts before
checking the error — a nil value (escape at end of line) panics. -/
def ArgTypeName (s : List Char) : Except GoPanic ArgRes :=
  if s.take 2 = ['*', ','] ∨ s.take 2 = ['*', ')'] then
    .ok ⟨some (.name ⟨true, []⟩), 1, none⟩
  else
    match (ArgTypeString s).arg with
    | some (.str v) =>
      .ok ⟨some (.name ⟨false, v⟩), (ArgTypeString s).n, (ArgTypeString s).err⟩
    | _ => .error .nilInterfaceConversion

/-- This revision's `ArgTypeClass`: a literal `@` prefix sets `NoSub`,
the rest parses as an `ArgName`. -/
def ArgTypeClass (s : List Char) : Except GoPanic ArgRes :=
  match s with
  | '@' :: rest =>
    match ArgTypeName rest with
    | .error p => .error p
    | .ok r =>
      match r.arg with
      | some (.name nm) => .ok ⟨some (.cls ⟨nm, true⟩), 1 + r.n, r.err⟩
      | _ => .error .nilInterfaceConversion
  | _ =>
    match ArgTypeName s with
    | .error p => .error p
    | .ok r =>
      match r.arg with
      | some (.name nm) => .ok ⟨some (.cls ⟨nm, false⟩), r.n, r.err⟩
      | _ => .error .nilInterfaceConversion

/-- This revision's `ArgTypeFileName`: an `ArgString`, type-asserted
before the error check. -/
def ArgTypeFileName (s : List Char) : Except GoPanic ArgRes :=
  match (ArgTypeString s).arg with
  | some (.str v) => .ok ⟨some (.fileName v), (ArgTypeString s).n, none⟩
  | _ => .error .nilInterfaceConversion

/-- The four argument parsers, as they appear in the default rule
definitions' signature tables. -/
inductive ArgTy where
  | str
  | name
  | cls
  | fileName
  deriving Repr, DecidableEq

def runArgType : ArgTy → List Char → Except GoPanic ArgRes
  | .str, s => .ok (ArgTypeString s)
  | .name, s => ArgTypeName s
  | .cls, s => ArgTypeClass s
  | .fileName, s => ArgTypeFileName s

/-- `DefaultRuleDefs.OutPattern` argument signatures. -/
def outPatterns : List (String × List ArgTy) :=
  [("Child", [.cls]), ("Property", [.cls, .name, .name])]

/-- `DefaultRuleDefs.OutFilter` argument signatures. -/
def outFilters : List (String × List ArgTy) :=
  [("File", [.str]), ("Directory", []), ("PropertyName", [.str]),
   ("Ignore", [])]

/-- `DefaultRuleDefs.InPattern` argument signatures. -/
def inPatterns : List (String × List ArgTy) :=
  [("File", [.fileName]), ("Directory", [.cls, .fileName])]

/-- `DefaultRuleDefs.InFilter` argument signatures. -/
def inFilters : List (String × List ArgTy) :=
  [("Children", []), ("Properties", []), ("Property", [.str]),
   ("PropertyName", []), ("Ignore", [])]

inductive SyncType where
  | syncOut
  | syncIn
  deriving Repr, DecidableEq

structure ruleFunc where
  name : String
  args : List Arg
  deriving Repr, DecidableEq

structure rulePair where
  depth : Nat
  syncType : SyncType
  pattern : ruleFunc
  filter : ruleFunc
  deriving Repr, DecidableEq

/-- The argument loop of `readFunc`: between arguments a premature `)`
is an arity error and anything but `,` a syntax error. -/
def readFuncArgs : List ArgTy → List Char →
    Except GoPanic (Except String (List Char × List Arg))
  | [], rule => .ok (.ok (rule, []))
  | [t], rule =>
    match runArgType t rule with
    | .error p => .error p
    | .ok r =>
      match r.err with
      | some e => .ok (.error e)
      | none => .ok (.ok (rule.drop r.n, r.arg.toList))
  | t :: t2 :: ts, rule =>
    match runArgType t rule with
    | .error p => .error p
    | .ok r =>
      match r.err with
      | some e => .ok (.error e)
      | none =>
        match rule.drop r.n with
        | ')' :: _ => .ok (.error "wrong argument count")
        | ',' :: rule2 =>
          match readFuncArgs (t2 :: ts) rule2 with
          | .error p => .error p
          | .ok (.error e) => .ok (.error e)
          | .ok (.ok (ruleEnd, args)) =>
            .ok (.ok (ruleEnd, r.arg.toList ++ args))
        | _ => .ok (.error "expected comma")

/-- `ruleParser.readFunc`. -/
def readFunc (rule : List Char) (table : List (String × List ArgTy)) :
    Except GoPanic (Except String (List Char × ruleFunc)) :=
  match hnm : identGo rule with
  | [] => .ok (.error "empty function name")
  | nm =>
    match lookupA table (String.mk nm) with
    | none => .ok (.error "unknown function")
    | some argts =>
      match rule.drop nm.length with
      | '(' :: rule1 =>
        match readFuncArgs argts rule1 with
        | .error p => .error p
        | .ok (.error e) => .ok (.error e)
        | .ok (.ok (rule2, args)) =>
          match rule2 with
          | ')' :: rule3 => .ok (.ok (rule3, ⟨String.mk nm, args⟩))
          | _ => .ok (.error "expected close paren")
      | _ => .ok (.error "expected open paren")

/-- `ruleParser.readRule`: note the rule pair is appended to the
parser's list before the trailing-garbage check runs, so a line can
yield both a pair and an error. -/
def readRule (depth : Nat) (rule : List Char) :
    Except GoPanic (Option rulePair × Option String) :=
  let typ := identGo rule
  let sel : Option (SyncType × List (String × List ArgTy) ×
      List (String × List ArgTy)) :=
    if String.mk typ = "out" then some (.syncOut, outPatterns, outFilters)
    else if String.mk typ = "in" then some (.syncIn, inPatterns, inFilters)
    else none
  match sel with
  | none => .ok (none, some "unknown rule type")
  | some (syncType, patterns, filters) =>
    match readFunc ((rule.drop typ.length).dropWhile isGoSpace) patterns with
    | .error p => .error p
    | .ok (.error e) => .ok (none, some e)
    | .ok (.ok (rule2, rfp)) =>
      match rule2.dropWhile isGoSpace with
      | ':' :: rule4 =>
        match readFunc (rule4.dropWhile isGoSpace) filters with
        | .error p => .error p
        | .ok (.error e) => .ok (none, some e)
        | .ok (.ok (rule6, rff)) =>
          if rule6.dropWhile isGoSpace = [] then
            .ok (some ⟨depth, syncType, rfp, rff⟩, none)
          else
            .ok (some ⟨depth, syncType, rfp, rff⟩,
              some "unexpected characters beyond filter")
      | _ => .ok (none, some "expected colon")

/-- `ruleParser.readLine`: skip blank and comment lines. -/
def readLine (depth : Nat) (line : List Char) :
    Except GoPanic (Option rulePair × Option String) :=
  match line.dropWhile isGoSpace with
  | [] => .ok (none, none)
  | '#' :: _ => .ok (none, none)
  | l => readRule depth l

/-- The scanner loop of `parseRules`, carrying the line counter:
each line's pair (if any) is appended to the rule list and each line's
error (if any) to the error list, tagged with the line number. -/
def parseRulesGo (depth : Nat) : List (List Char) → Nat →
    Except GoPanic (List rulePair × List (Nat × String))
  | [], _ => .ok ([], [])
  | l :: rest, ln =>
    match readLine depth l with
    | .error p => .error p
    | .ok r =>
      match parseRulesGo depth rest (ln + 1) with
      | .error p => .error p
      | .ok (pairs, errs) =>
        .ok (r.1.toList ++ pairs, (r.2.map (fun e => (ln, e))).toList ++ errs)

/-- `ruleParser.parseRules` over the lines of the input, starting at
line 1; the pair list is returned together with the collected errors
(the source sets `err` when the error list is nonempty but still
returns `d.funcs`). -/
def parseRules (depth : Nat) (lines : List (List Char)) :
    Except GoPanic (List rulePair × List (Nat × String)) :=
  parseRulesGo depth lines 1

/-- A line's outcome, read off `readLine` when it does not panic. -/
def lineOut (depth : Nat) (l : List Char) :
    Option rulePair × Option String :=
  match readLine depth l with
  | .ok r => r
  | .error _ => (none, none)

/-- `(line number, line)` pairs starting at a given number. -/
def enumFrom {α : Type} : Nat → List α → List (Nat × α)
  | _, [] => []
  | n, a :: as => (n, a) :: enumFrom (n + 1) as

end RuleParse


namespace RuleParse

/-- The first panic among the lines, in scanner order: the argument
parsers' nil-interface assertion aborts the whole parse at the line
that raises it. -/
def firstPanic (depth : Nat) : List (List Char) → Option GoPanic
  | [] => none
  | l :: rest =>
    match readLine depth l with
    | .error p => some p
    | .ok _ => firstPanic depth rest

theorem parseRulesGo_per_line (depth : Nat) :
    ∀ (lines : List (List Char)) (ln : Nat),
      parseRulesGo depth lines ln =
        (match firstPanic depth lines with
         | some p => .error p
         | none => .ok
           ((enumFrom ln lines).flatMap
             (fun il => (lineOut depth il.2).1.toList),
            (enumFrom ln lines).flatMap
             (fun il => ((lineOut depth il.2).2.map
               (fun e => (il.1, e))).toList))) := by
  intro lines
  induction lines with
  | nil =>
    intro ln
    rfl
  | cons l rest ih =>
    intro ln
    unfold parseRulesGo firstPanic
    rcases hr : readLine depth l with p | r
    · rfl
    · have hlo : lineOut depth l = r := by unfold lineOut; rw [hr]
      simp only [ih (ln + 1)]
      rcases hfp : firstPanic depth rest with _ | p
      · simp [enumFrom, hlo]
      · rfl

/-- C4 (amended): the collecting rule parser runs line by line with two
regimes.  A line whose argument text ends in a backslash escape makes
`ArgTypeString` return a nil `Arg`, which `ArgTypeName` (and through
it the `Class` and `FileName` parsers) type-asserts before checking the
error — a Go nil-interface-conversion panic that aborts the whole
parse at the first such line instead of collecting an error.  When no
line panics, every line is processed independently: the result
concatenates, in line order, each line's parsed pair (when the line
reaches the pair-append point) and each line's error tagged with its
1-based line number — all errors are collected and good lines all
contribute their pairs, but a line failing only the trailing-garbage
check contributes both a pair and an error. -/
theorem parseRules_per_line (depth : Nat) (lines : List (List Char)) :
    parseRules depth lines =
      (match firstPanic depth lines with
       | some p => .error p
       | none => .ok
         ((enumFrom 1 lines).flatMap
           (fun il => (lineOut depth il.2).1.toList),
          (enumFrom 1 lines).flatMap
           (fun il => ((lineOut depth il.2).2.map
             (fun e => (il.1, e))).toList))) :=
  parseRulesGo_per_line depth lines 1

/-- C4 counterexample: the line `out Child(*) : Ignore() x` is a bad
line — it is charged the error `unexpected characters beyond filter`
on line 1 — and still contributes a rule pair, because `readRule`
appends the pair before the trailing-garbage check. -/
theorem readRule_trailing_pair :
    parseRules 1 ["out Child(*) : Ignore() x".data] =
      .ok ([⟨1, .syncOut, ⟨"Child", [.cls ⟨⟨true, []⟩, false⟩]⟩,
             ⟨"Ignore", []⟩⟩],
           [(1, "unexpected characters beyond filter")]) := by
  rfl

def c4Lines : List (List Char) :=
  ["# rules".data, "".data, "out Child(*) : Ignore()".data,
   "bad line".data]

/-- C4 witness: the amended theorem applied to a four-line file — a
comment, a blank line, a good rule and a bad line — yielding one pair
and one error tagged with line 4, and to a file whose single line ends
in a backslash escape, on which the parse aborts with the
nil-interface panic. -/
theorem parseRules_per_line_witness :
    parseRules 2 c4Lines = .ok
      ([⟨2, .syncOut, ⟨"Child", [.cls ⟨⟨true, []⟩, false⟩]⟩,
         ⟨"Ignore", []⟩⟩],
       [(4, "unknown rule type")]) ∧
    parseRules 1 ["out Child(\\".data] = .error .nilInterfaceConversion :=
  ⟨by rw [parseRules_per_line 2 c4Lines]; rfl,
   by rw [parseRules_per_line 1 ["out Child(\\".data]]; rfl⟩

end RuleParse


/-! ## C5: the out-planner's recursion order (`syncOutReadObject`)

The planner remembers `(child_index, name)` pairs while the rules fire
and then recurses over the remembered list in the order it was built —
the order the rules produced the pairs.  The default `Child` pattern
and `Directory` filter are embedded so the counterexample arises from
real rules. -/

/-- The class table of a dumped API: class name to (entry name,
superclass name). -/
def API : Type := List (String × (String × String))

/-- The superclass walk of `inherits`; the fuel bounds the walk by the
table size, which the walk cannot exceed on the acyclic tables the API
dump produces (on a cyclic table the Go loop would not terminate). -/
def chainWalk (classes : API) (className : String) :
    Nat → Option (String × String) → Bool
  | _, none => false
  | 0, some _ => false
  | fuel + 1, some entry =>
    if entry.1 = className then true
    else chainWalk classes className fuel (lookupA classes entry.2)

/-- `inherits`: without an API, plain class-name equality; with one,
the superclass chain walk. -/
def inherits (api : Option API) (w : World) (obj : Nat)
    (className : String) : Bool :=
  match api with
  | none => (w obj).className = className
  | some classes =>
    chainWalk classes className (classes.length + 1)
      (lookupA classes (w obj).className)

/-- `isValidFileName` (the `isDir` parameter is unused in the
source too). -/
def isValidFileName (name : String) (isDir : Bool) : Bool :=
  if name.data.length = 0 ∨ 255 < name.data.length ∨
      name = "." ∨ name = ".." then false
  else name.data.all (fun r =>
    ('A' ≤ r ∧ r ≤ 'Z') ∨ ('a' ≤ r ∧ r ≤ 'z') ∨ ('0' ≤ r ∧ r ≤ '9') ∨
      r = '.' ∨ r = '_' ∨ r = '-')

/-- The default `Child` out-pattern: all child indices for `*`,
otherwise the ascending indices whose child inherits the named
class. -/
def childPattern (api : Option API) (w : World) (cls : ArgClass)
    (obj : Nat) : List Nat :=
  if cls.name.any then List.range (w obj).children.length
  else
    (List.range (w obj).children.length).filter (fun i =>
      match (w obj).children[i]? with
      | some c => inherits (if cls.noSub then none else api) w c
          (String.mk cls.name.literal)
      | none => false)

/-- The per-index body of the default `Directory` out-filter. -/
def dirMapOf (w : World) (obj : Nat) (n : Nat) : Option OutMap :=
  match (w obj).children[n]? with
  | none => none
  | some child =>
    if isValidFileName (w child).name true then
      some ⟨⟨(w child).name, true⟩, [⟨obj, [n], []⟩]⟩
    else none

/-- The loop of the default `Directory` out-filter: indexing
`obj.Children[n]` is unchecked in the source, a panic when out of
range. -/
def dirFilterGo (w : World) (obj : Nat) :
    List Nat → Except GoPanic (List OutMap)
  | [] => .ok []
  | n :: rest =>
    match (w obj).children[n]? with
    | none => .error .indexOutOfRange
    | some child =>
      match dirFilterGo w obj rest with
      | .error p => .error p
      | .ok ms =>
        if isValidFileName (w child).name true then
          .ok (⟨⟨(w child).name, true⟩, [⟨obj, [n], []⟩]⟩ :: ms)
        else .ok ms

/-- The default `Directory` out-filter. -/
def directoryFilter (w : World) (obj : Nat) (sobj : List Nat)
    (sprop : List String) : Except GoPanic (Except String (List OutMap)) :=
  if sprop ≠ [] then .ok (.error "properties not supported")
  else
    match dirFilterGo w obj sobj with
    | .error p => .error p
    | .ok ms => .ok (.ok ms)

/-- `CallOut` for a `Child(..) : Directory()` rule pair: the pattern,
the empty-selection early return, then the filter. -/
def callOutChildDirectory (api : Option API) (w : World) (cls : ArgClass)
    (obj : Nat) : Except GoPanic (Except String (List OutMap)) :=
  if childPattern api w cls obj = [] then .ok (.ok [])
  else directoryFilter w obj (childPattern api w cls obj) []

/-- The remembered `(child_index, name)` pairs one fired map
contributes in `syncOutReadObject`: directory maps only, selections of
the visited object itself with exactly one in-bounds child index. -/
def rememberedOfMap (w : World) (obj : Nat) (m : OutMap) :
    List (Nat × String) :=
  if m.file.isDir then
    m.selection.filterMap (fun s =>
      if s.object = obj then
        match s.children with
        | [k] =>
          if k < (w obj).children.length then some (k, m.file.name)
          else none
        | _ => none
      else none)
  else []

/-- The remembered recursion list of one `syncOutReadObject` visit, in
the order the rules produced it; `calls` holds each rule's depth and
`CallOut` maps in rule order. -/
def syncOutRemembered (w : World) (obj : Nat)
    (calls : List (Nat × List OutMap)) : List (Nat × String) :=
  calls.flatMap (fun c => c.2.flatMap (rememberedOfMap w obj))

/-- One level of `syncOutReadObject`: the actions it emits and the
`(child_index, name)` list it recurses over, in that list's order. -/
def syncOutReadObjectStep (w : World) (dir : List String) (obj : Nat)
    (calls : List (Nat × List OutMap)) :
    List OutAction × List (Nat × String) :=
  (calls.flatMap (fun c => c.2.map (fun m => ⟨c.1, dir, m⟩)),
   syncOutRemembered w obj calls)

def c5World : World := fun n =>
  if n = 0 then ⟨"Root", "root", [1, 2], none⟩
  else if n = 1 then ⟨"Foo", "a", [], some 0⟩
  else if n = 2 then ⟨"Bar", "b", [], some 0⟩
  else ⟨"", "", [], none⟩

def c5MapsBar : List OutMap := [⟨⟨"b", true⟩, [⟨0, [1], []⟩]⟩]

def c5MapsFoo : List OutMap := [⟨⟨"a", true⟩, [⟨0, [0], []⟩]⟩]

/-- C5 counterexample: under the rules `Child(Bar) : Directory()` then
`Child(Foo) : Directory()` — both produced by the real embedded
pattern and filter — the planner's recursion list is `[(1, b), (0, a)]`:
rule-production order, not ascending child index. -/
theorem syncOutReadObject_recursion_not_ascending :
    callOutChildDirectory none c5World ⟨⟨false, "Bar".data⟩, false⟩ 0 =
      .ok (.ok c5MapsBar) ∧
    callOutChildDirectory none c5World ⟨⟨false, "Foo".data⟩, false⟩ 0 =
      .ok (.ok c5MapsFoo) ∧
    (syncOutReadObjectStep c5World ["out"] 0
      [(1, c5MapsBar), (1, c5MapsFoo)]).2 = [(1, "b"), (0, "a")] ∧
    ¬ ((syncOutReadObjectStep c5World ["out"] 0
      [(1, c5MapsBar), (1, c5MapsFoo)]).2.map Prod.fst).Pairwise (· ≤ ·) := by
  refine ⟨by decide, by decide, by decide, by decide⟩


theorem syncOutRemembered_bound (w : World) (obj : Nat)
    (calls : List (Nat × List OutMap)) :
    ∀ p ∈ syncOutRemembered w obj calls,
      p.1 < (w obj).children.length := by
  intro p hp
  simp only [syncOutRemembered, List.mem_flatMap] at hp
  obtain ⟨c, _, m, _, hp⟩ := hp
  unfold rememberedOfMap at hp
  by_cases hd : m.file.isDir = true
  · rw [if_pos hd] at hp
    simp only [List.mem_filterMap] at hp
    obtain ⟨s, _, hs⟩ := hp
    by_cases ho : s.object = obj
    · rw [if_pos ho] at hs
      rcases hch : s.children with _ | ⟨k, rest⟩
      · rw [hch] at hs
        exact Option.noConfusion hs
      · rw [hch] at hs
        cases rest with
        | cons k2 r2 => exact Option.noConfusion hs
        | nil =>
          have hs' : (if k < (w obj).children.length
              then some (k, m.file.name) else none) = some p := hs
          by_cases hk : k < (w obj).children.length
          · rw [if_pos hk] at hs'
            cases Option.some.inj hs'
            exact hk
          · rw [if_neg hk] at hs'
            exact Option.noConfusion hs'
    · rw [if_neg ho] at hs
      exact Option.noConfusion hs
  · rw [if_neg hd] at hp
    simp at hp

theorem dirFilterGo_eq_filterMap (w : World) (obj : Nat) :
    ∀ sobj : List Nat, (∀ n ∈ sobj, n < (w obj).children.length) →
      dirFilterGo w obj sobj = .ok (sobj.filterMap (dirMapOf w obj)) := by
  intro sobj
  induction sobj with
  | nil => intro _; rfl
  | cons n rest ih =>
    intro h
    have hn : n < (w obj).children.length := h n (List.mem_cons_self _ _)
    have hsome : (w obj).children[n]? = some (w obj).children[n] :=
      List.getElem?_eq_getElem hn
    unfold dirFilterGo
    simp only [hsome]
    simp only [ih (fun x hx => h x (List.mem_cons_of_mem _ hx))]
    by_cases hv : isValidFileName (w ((w obj).children[n])).name true = true
    · have hmap : dirMapOf w obj n =
          some ⟨⟨(w ((w obj).children[n])).name, true⟩, [⟨obj, [n], []⟩]⟩ := by
        unfold dirMapOf
        simp only [hsome]
        rw [if_pos hv]
      rw [if_pos hv, List.filterMap_cons, hmap]
    · have hmap : dirMapOf w obj n = none := by
        unfold dirMapOf
        simp only [hsome]
        rw [if_neg hv]
      rw [if_neg hv, List.filterMap_cons, hmap]

theorem syncOutRemembered_single (w : World) (obj : Nat) (d : Nat)
    (maps : List OutMap) :
    syncOutRemembered w obj [(d, maps)] =
      maps.flatMap (rememberedOfMap w obj) := by
  simp [syncOutRemembered]

theorem remembered_filterMap_fst (w : World) (obj : Nat) :
    ∀ sobj : List Nat, (∀ n ∈ sobj, n < (w obj).children.length) →
      (((sobj.filterMap (dirMapOf w obj)).flatMap
        (rememberedOfMap w obj)).map Prod.fst) =
        sobj.filter (fun n => (dirMapOf w obj n).isSome) := by
  intro sobj
  induction sobj with
  | nil => intro _; rfl
  | cons n rest ih =>
    intro h
    have hn : n < (w obj).children.length := h n (List.mem_cons_self _ _)
    have hsome : (w obj).children[n]? = some (w obj).children[n] :=
      List.getElem?_eq_getElem hn
    have ih' := ih (fun x hx => h x (List.mem_cons_of_mem _ hx))
    rw [List.filterMap_cons, List.filter_cons]
    by_cases hv : isValidFileName (w ((w obj).children[n])).name true = true
    · have hmap : dirMapOf w obj n =
          some ⟨⟨(w ((w obj).children[n])).name, true⟩, [⟨obj, [n], []⟩]⟩ := by
        unfold dirMapOf
        simp only [hsome]
        rw [if_pos hv]
      have hr : rememberedOfMap w obj
          ⟨⟨(w ((w obj).children[n])).name, true⟩, [⟨obj, [n], []⟩]⟩ =
            [(n, (w ((w obj).children[n])).name)] := by
        unfold rememberedOfMap
        simp [hn]
      rw [hmap]
      simp only [List.flatMap_cons, hr, List.map_append, List.map_cons,
        List.map_nil, ih', hmap, Option.isSome_some, if_true]
      rfl
    · have hmap : dirMapOf w obj n = none := by
        unfold dirMapOf
        simp only [hsome]
        rw [if_neg hv]
      rw [hmap]
      simp only [ih', hmap, Option.isSome_none, Bool.false_eq_true, if_false]

/-- C5 (amended): `syncOutReadObject` recurses over the remembered
`(child_index, name)` pairs in the order the rules produced them — not
in ascending child-index order (the counterexample shows two rules
producing a descending list).  Every remembered index is in bounds of
the visited object's child list, and for a single
`Child(*) : Directory()` rule the production order does coincide with
strictly ascending child index, because the pattern enumerates the
children in index order and the filter preserves it. -/
theorem syncOutReadObject_recursion_order (api : Option API) (w : World)
    (dir : List String) (obj : Nat) (d : Nat) (maps : List OutMap)
    (h : callOutChildDirectory api w ⟨⟨true, []⟩, false⟩ obj =
      .ok (.ok maps)) :
    (∀ p ∈ (syncOutReadObjectStep w dir obj [(d, maps)]).2,
      p.1 < (w obj).children.length) ∧
    ((syncOutReadObjectStep w dir obj
      [(d, maps)]).2.map Prod.fst).Pairwise (· < ·) := by
  have hstep : (syncOutReadObjectStep w dir obj [(d, maps)]).2 =
      syncOutRemembered w obj [(d, maps)] := rfl
  refine ⟨?_, ?_⟩
  · rw [hstep]
    exact syncOutRemembered_bound w obj _
  · rw [hstep]
    have hcp : childPattern api w ⟨⟨true, []⟩, false⟩ obj =
        List.range (w obj).children.length := rfl
    unfold callOutChildDirectory at h
    rw [hcp] at h
    by_cases hlen : List.range (w obj).children.length = []
    · rw [if_pos hlen] at h
      have hmnil : (Except.ok (Except.ok ([] : List OutMap)) :
          Except GoPanic (Except String (List OutMap))) =
            .ok (.ok maps) := h
      injection hmnil with h1
      injection h1 with h2
      rw [← h2]
      simp [syncOutRemembered]
    · rw [if_neg hlen] at h
      unfold directoryFilter at h
      rw [if_neg (by simp)] at h
      rw [dirFilterGo_eq_filterMap w obj _
        (fun n hn => List.mem_range.mp hn)] at h
      have h' : (Except.ok (Except.ok ((List.range
          (w obj).children.length).filterMap (dirMapOf w obj))) :
            Except GoPanic (Except String (List OutMap))) =
              .ok (.ok maps) := h
      injection h' with h1
      injection h1 with h2
      rw [syncOutRemembered_single, ← h2]
      rw [remembered_filterMap_fst w obj _
        (fun n hn => List.mem_range.mp hn)]
      exact List.Pairwise.sublist (List.filter_sublist _)
        (List.pairwise_lt_range _)

def c5MapsAny : List OutMap :=
  [⟨⟨"a", true⟩, [⟨0, [0], []⟩]⟩, ⟨⟨"b", true⟩, [⟨0, [1], []⟩]⟩]

/-- C5 witness: the amended theorem applied to the concrete world under
the single rule `Child(*) : Directory()`, whose recursion list is
`[(0, a), (1, b)]` — ascending. -/
theorem syncOutReadObject_recursion_order_witness :
    (callOutChildDirectory none c5World ⟨⟨true, []⟩, false⟩ 0 =
      .ok (.ok c5MapsAny)) ∧
    ((∀ p ∈ (syncOutReadObjectStep c5World ["out"] 0 [(1, c5MapsAny)]).2,
       p.1 < (c5World 0).children.length) ∧
     ((syncOutReadObjectStep c5World ["out"] 0
       [(1, c5MapsAny)]).2.map Prod.fst).Pairwise (· < ·)) ∧
    (syncOutReadObjectStep c5World ["out"] 0 [(1, c5MapsAny)]).2 =
      [(0, "a"), (1, "b")] :=
  ⟨by decide,
   syncOutReadObject_recursion_order none c5World ["out"] 0 1 c5MapsAny
     (by decide),
   by decide⟩


end Rbxfs
